import Mathlib

/-!
Verification of the JSON-validator plugin `examples/python-plugin/check.py`
from the `go-pre-commit` repository.

The plugin is a single Python program: it reads one JSON request from stdin,
validates each `.json`/`.jsonc` file for syntactic correctness and canonical
formatting (`json.dumps` with a configurable indent and optional key sorting),
and aggregates the per-file outcomes into one JSON response plus an exit code.

This file shallowly embeds the program: Python strings are modelled as Lean
`String` (lists of Unicode scalar values), the `json` stdlib functions
`loads`/`dumps` are modelled by an executable recursive-descent parser and
printer over `JValue`, the file system is a partial map from paths to
contents, and the environment variables are optional strings.  Python
exceptions that escape `main` are modelled by the `PyExc` error monad.

Modelling notes (documented deviations, none load-bearing for the claims):
* JSON numbers are modelled as arbitrary-precision integers.  Float literals
  (fraction/exponent parts, `NaN`, `Infinity`) are binary floating point in
  Python and are outside the modelled fragment.
* `\uXXXX` escapes must be exactly four hex digits, and unpaired surrogate
  escapes are rejected (Lean `Char` cannot hold lone surrogates).
* `str.rstrip`/`str.strip` strip the ASCII whitespace characters; the exotic
  Unicode whitespace code points are not modelled.
* `repr` of Python containers (used only when a non-string `command` value is
  interpolated into the unknown-command message) is approximated for
  non-printable corner cases.
-/

/-! ## Character helpers -/

/-- Whitespace accepted by Python's JSON scanner (`json.decoder._ws`). -/
def isJsonWsChar (c : Char) : Bool :=
  c = ' ' || c = '\t' || c = '\n' || c = '\r'

/-- ASCII whitespace stripped by Python's `str.strip`/`str.rstrip`. -/
def isPyWsChar (c : Char) : Bool :=
  c = ' ' || c = '\t' || c = '\n' || c = '\r' || c = '\x0b' || c = '\x0c'

/-- Decimal digit test. -/
def isDigitC (c : Char) : Bool :=
  48 ≤ c.toNat && c.toNat ≤ 57

/-- Numeric value of a decimal digit character. -/
def digitVal (c : Char) : Nat :=
  c.toNat - 48

/-- The decimal digit character for `n < 10`. -/
def digitChar (n : Nat) : Char :=
  Char.ofNat (48 + n)

/-- Lowercase hex digit character for `n < 16` (as produced by Python's
`'{0:04x}'.format`). -/
def hexDigitChar (n : Nat) : Char :=
  if n < 10 then Char.ofNat (48 + n) else Char.ofNat (87 + n)

/-- Value of a hex digit, accepting both cases (Python `int(_, 16)`). -/
def hexVal (c : Char) : Option Nat :=
  if 48 ≤ c.toNat ∧ c.toNat ≤ 57 then some (c.toNat - 48)
  else if 97 ≤ c.toNat ∧ c.toNat ≤ 102 then some (c.toNat - 87)
  else if 65 ≤ c.toNat ∧ c.toNat ≤ 70 then some (c.toNat - 55)
  else none

/-! ## Decimal representation of integers (Python `str(int)`) -/

/-- Fuel-indexed digit printer; `fuel > n` always suffices. -/
def natReprAux (fuel n : Nat) : List Char :=
  match fuel with
  | 0 => []
  | f + 1 => if n < 10 then [digitChar n] else natReprAux f (n / 10) ++ [digitChar (n % 10)]

/-- Decimal representation of a natural number, most significant digit first. -/
def natRepr (n : Nat) : List Char :=
  natReprAux (n + 1) n

/-- Decimal representation of an integer, as produced by Python `str`. -/
def intRepr (n : Int) : List Char :=
  if n < 0 then '-' :: natRepr n.natAbs else natRepr n.toNat

/-! ## JSON values

Python `json.loads` produces `None`, `bool`, `int`/`float`, `str`, `list`
and `dict`.  Objects are modelled as association lists in insertion order
(Python dicts preserve insertion order). -/

inductive JValue where
  | null
  | bool (b : Bool)
  | int (n : Int)
  | str (s : String)
  | arr (elems : List JValue)
  | obj (pairs : List (String × JValue))

/-! ## Key ordering and sorting (Python `sorted(dct.items())`)

Python compares strings lexicographically by code point.  With the distinct
keys of a parsed dict the tuple comparison never reaches the values, so the
order is determined by the keys alone. -/

/-- Code-point lexicographic `≤` on character lists (Python string `<=`). -/
def clLe : List Char → List Char → Bool
  | [], _ => true
  | _ :: _, [] => false
  | a :: as, b :: bs =>
    if a.toNat < b.toNat then true
    else if b.toNat < a.toNat then false
    else clLe as bs

/-- Order on key/value pairs used by `json.dumps(..., sort_keys=True)`. -/
def keyLE (a b : String × JValue) : Prop :=
  clLe a.1.data b.1.data = true

instance : DecidableRel keyLE :=
  fun _ _ => inferInstanceAs (Decidable (_ = true))

/-- `keyLE` is total: code-point comparison decides every pair. -/
instance : IsTotal (String × JValue) keyLE := by
  constructor
  intro a b
  show clLe a.1.data b.1.data = true ∨ clLe b.1.data a.1.data = true
  generalize a.1.data = x
  generalize b.1.data = y
  induction x generalizing y with
  | nil => left; rfl
  | cons c cs ih =>
    cases y with
    | nil => right; rfl
    | cons d ds =>
      simp only [clLe]
      by_cases h1 : c.toNat < d.toNat
      · left; simp [h1]
      · by_cases h2 : d.toNat < c.toNat
        · right; simp [h2, h1]
        · simpa [h1, h2] using ih ds

/-- `keyLE` is transitive. -/
instance : IsTrans (String × JValue) keyLE := by
  constructor
  intro a b c hab hbc
  have hab1 : clLe a.1.data b.1.data = true := hab
  have hbc1 : clLe b.1.data c.1.data = true := hbc
  show clLe a.1.data c.1.data = true
  clear hab hbc
  generalize a.1.data = x at hab1 ⊢
  generalize b.1.data = y at hab1 hbc1
  generalize c.1.data = z at hbc1 ⊢
  induction x generalizing y z with
  | nil => rfl
  | cons u us ih =>
    cases y with
    | nil => simp [clLe] at hab1
    | cons v vs =>
      cases z with
      | nil => simp [clLe] at hbc1
      | cons w ws =>
        simp only [clLe] at hab1 hbc1 ⊢
        by_cases h1 : u.toNat < v.toNat <;> by_cases h2 : v.toNat < w.toNat <;>
          by_cases h3 : u.toNat < w.toNat <;> simp_all
        · exfalso; omega
        · exfalso; omega
        · exfalso; omega
        · exact Or.inr ⟨by omega, ih vs hab1.2 ws hbc1.2⟩


/-- Stable ascending sort of an object's items by key. -/
def sortPairs (ps : List (String × JValue)) : List (String × JValue) :=
  List.insertionSort keyLE ps

mutual
/-- Recursively sort every object's items by key.  `json.dumps` with
`sort_keys=True` sorts each object's items at serialization time; factoring
the sort into this pre-pass yields the identical text. -/
def deepSort (v : JValue) : JValue :=
  match v with
  | .obj kvs => .obj (sortPairs (deepSortPairs kvs))
  | .arr xs => .arr (deepSortList xs)
  | v => v
termination_by structural v
def deepSortList (l : List JValue) : List JValue :=
  match l with
  | [] => []
  | x :: xs => deepSort x :: deepSortList xs
termination_by structural l
def deepSortPairs (l : List (String × JValue)) : List (String × JValue) :=
  match l with
  | [] => []
  | (k, v) :: r => (k, deepSort v) :: deepSortPairs r
termination_by structural l
end

/-! ## Serialization (`json.dumps(data, indent=n, sort_keys=b, ensure_ascii=False)`)

With an integer `indent`, Python uses `',' / ': '` separators, a newline plus
`indent * level` spaces before every item, and emits non-ASCII characters
literally.  Only `"`, `\` and the control characters below `0x20` are
escaped (`json.encoder.ESCAPE` with `ensure_ascii=False`). -/

/-- Escape of one character inside a JSON string (`json.encoder.ESCAPE_DCT`). -/
def escapeChar (c : Char) : List Char :=
  if c = '"' then ['\\', '"']
  else if c = '\\' then ['\\', '\\']
  else if c = '\x08' then ['\\', 'b']
  else if c = '\x0c' then ['\\', 'f']
  else if c = '\n' then ['\\', 'n']
  else if c = '\r' then ['\\', 'r']
  else if c = '\t' then ['\\', 't']
  else if c.toNat < 0x20 then
    ['\\', 'u', '0', '0', hexDigitChar (c.toNat / 16), hexDigitChar (c.toNat % 16)]
  else [c]

/-- Escape every character of a string body. -/
def escapeList : List Char → List Char
  | [] => []
  | c :: cs => escapeChar c ++ escapeList cs

/-- Serialization of a JSON string, including the surrounding quotes. -/
def encodeStr (s : String) : List Char :=
  '"' :: (escapeList s.data ++ ['"'])

/-- Newline followed by the indentation for nesting level `lvl`. -/
def nlInd (ind lvl : Nat) : List Char :=
  '\n' :: List.replicate (ind * lvl) ' '

mutual
/-- Serialization of one value at nesting level `lvl` (objects assumed
pre-sorted by `deepSort` when `sort_keys` is active). -/
def printVal (ind lvl : Nat) (v : JValue) : List Char :=
  match v with
  | .null => ['n', 'u', 'l', 'l']
  | .bool b => if b then ['t', 'r', 'u', 'e'] else ['f', 'a', 'l', 's', 'e']
  | .int n => intRepr n
  | .str s => encodeStr s
  | .arr [] => ['[', ']']
  | .arr (x :: xs) =>
      '[' :: (nlInd ind (lvl + 1) ++ printVal ind (lvl + 1) x ++
        printListRest ind (lvl + 1) xs ++ nlInd ind lvl ++ [']'])
  | .obj [] => ['\x7b', '\x7d']
  | .obj ((k, v) :: ps) =>
      '\x7b' :: (nlInd ind (lvl + 1) ++ encodeStr k ++ ':' :: ' ' ::
        printVal ind (lvl + 1) v ++ printPairsRest ind (lvl + 1) ps ++
        nlInd ind lvl ++ ['\x7d'])
termination_by structural v
/-- Serialization of the remaining array items, each preceded by `,\n` and
indentation. -/
def printListRest (ind lvl : Nat) (l : List JValue) : List Char :=
  match l with
  | [] => []
  | y :: ys => ',' :: (nlInd ind lvl ++ printVal ind lvl y ++ printListRest ind lvl ys)
termination_by structural l
/-- Serialization of the remaining object items. -/
def printPairsRest (ind lvl : Nat) (l : List (String × JValue)) : List Char :=
  match l with
  | [] => []
  | (k, v) :: qs =>
      ',' :: (nlInd ind lvl ++ encodeStr k ++ ':' :: ' ' ::
        printVal ind lvl v ++ printPairsRest ind lvl qs)
termination_by structural l
end

/-- Model of `json.dumps(data, indent=indent, sort_keys=sort_keys,
ensure_ascii=False)`.  A negative integer indent behaves like `0`
(`' ' * indent` is empty). -/
def pyJsonDumps (indent : Int) (sort_keys : Bool) (v : JValue) : String :=
  ⟨printVal indent.toNat 0 (if sort_keys then deepSort v else v)⟩

/-! ## Parsing (`json.loads`)

A recursive-descent model of `json/decoder.py` + `json/scanner.py`,
tracking the absolute character position (Python `str` index) for error
reporting.  Error messages and positions mirror the Python scanner. -/

/-- A JSON syntax error: the character offset of the first error and the
parser's diagnostic text (`JSONDecodeError.pos` / `.msg`). -/
structure JErr where
  pos : Nat
  msg : String

/-- Skip JSON whitespace, advancing the position. -/
def skipWs : List Char → Nat → List Char × Nat
  | c :: cs, p => if isJsonWsChar c then skipWs cs (p + 1) else (c :: cs, p)
  | [], p => ([], p)

/-- The single-character escapes of `json.decoder.BACKSLASH`. -/
def simpleEscape (e : Char) : Option Char :=
  if e = '"' then some '"'
  else if e = '\\' then some '\\'
  else if e = '/' then some '/'
  else if e = 'b' then some '\x08'
  else if e = 'f' then some '\x0c'
  else if e = 'n' then some '\n'
  else if e = 'r' then some '\r'
  else if e = 't' then some '\t'
  else none

/-- Python `repr` of a one-character string, as interpolated into the
scanner's diagnostics. -/
def reprAnyChar (c : Char) : String :=
  if c = '\t' then "\x27\\t\x27"
  else if c = '\n' then "\x27\\n\x27"
  else if c = '\r' then "\x27\\r\x27"
  else if c.toNat < 0x20 || c.toNat == 0x7f then
    ⟨['\x27', '\\', 'x', hexDigitChar (c.toNat / 16), hexDigitChar (c.toNat % 16), '\x27']⟩
  else if c = '\x27' then "\"\x27\""
  else if c = '\\' then "\x27\\\\\x27"
  else ⟨['\x27', c, '\x27']⟩

/-- The value of four hex digits (`json.decoder._decode_uXXXX`): `none`
models the `Invalid \uXXXX escape` error. -/
def hex4 (a b c d : Char) : Option Nat :=
  match hexVal a, hexVal b, hexVal c, hexVal d with
  | some ha, some hb, some hc, some hd => some (ha * 4096 + hb * 256 + hc * 16 + hd)
  | _, _, _, _ => none

/-- Escape decoder (the backslash cases of `json.decoder.py_scanstring`):
`cs1` are the characters after the backslash at offset `p`; on success it
returns the decoded character, the remaining characters, and the number of
characters consumed including the backslash. -/
def scanEscape (beginPos : Nat) (cs1 : List Char) (p : Nat) :
    Except JErr (Char × List Char × Nat) :=
  match cs1 with
  | [] => .error ⟨beginPos, "Unterminated string starting at"⟩
  | e :: cs2 =>
    if e = 'u' then
      match cs2 with
      | a :: b :: c2 :: d :: cs3 =>
        match hex4 a b c2 d with
        | some u =>
          if 0xD800 ≤ u ∧ u < 0xDC00 then
            match cs3 with
            | e2 :: u2 :: a2 :: b2 :: c3 :: d2 :: cs4 =>
              if e2 = '\\' ∧ u2 = 'u' then
                match hex4 a2 b2 c3 d2 with
                | some v =>
                  if 0xDC00 ≤ v ∧ v < 0xE000 then
                    .ok (Char.ofNat (0x10000 + (u - 0xD800) * 1024 + (v - 0xDC00)), cs4, 12)
                  else
                    .error ⟨p + 1, "unpaired surrogate escape (outside the modelled fragment)"⟩
                | none =>
                  .error ⟨p + 1, "unpaired surrogate escape (outside the modelled fragment)"⟩
              else .error ⟨p + 1, "unpaired surrogate escape (outside the modelled fragment)"⟩
            | _ => .error ⟨p + 1, "unpaired surrogate escape (outside the modelled fragment)"⟩
          else if 0xDC00 ≤ u ∧ u < 0xE000 then
            .error ⟨p + 1, "unpaired surrogate escape (outside the modelled fragment)"⟩
          else .ok (Char.ofNat u, cs3, 6)
        | none => .error ⟨p + 1, "Invalid \\uXXXX escape"⟩
      | _ => .error ⟨p + 1, "Invalid \\uXXXX escape"⟩
    else
      match simpleEscape e with
      | some ec => .ok (ec, cs2, 2)
      | none => .error ⟨p + 1, "Invalid \\escape: " ++ reprAnyChar e⟩

/-- String-body scanner (`json.decoder.py_scanstring`, strict mode),
fuel-indexed (each step consumes at least one character, so `length + 1`
fuel always suffices).  `beginPos` is the offset of the opening quote (used
by the unterminated error); `p` is the offset of the next unconsumed
character; `acc` holds the decoded characters so far. -/
def scanStringAux (fuel : Nat) (beginPos : Nat) (acc : List Char) (cs : List Char) (p : Nat) :
    Except JErr (String × List Char × Nat) :=
  match fuel with
  | 0 => .error ⟨beginPos, "Unterminated string starting at"⟩
  | f + 1 =>
    match cs with
    | [] => .error ⟨beginPos, "Unterminated string starting at"⟩
    | c :: cs1 =>
      if c = '"' then .ok (⟨acc⟩, cs1, p + 1)
      else if c = '\\' then
        match scanEscape beginPos cs1 p with
        | .error e => .error e
        | .ok (ec, cs2, dp) => scanStringAux f beginPos (acc ++ [ec]) cs2 (p + dp)
      else if c.toNat < 0x20 then
        .error ⟨p, "Invalid control character " ++ reprAnyChar c ++ " at"⟩
      else scanStringAux f beginPos (acc ++ [c]) cs1 (p + 1)

/-- Maximal run of decimal digits, accumulating the value
(`json.scanner.NUMBER_RE` integer part). -/
def scanDigits (acc : Nat) (cs : List Char) (p : Nat) : Nat × List Char × Nat :=
  match cs with
  | c :: cs1 =>
    if isDigitC c then scanDigits (acc * 10 + digitVal c) cs1 (p + 1) else (acc, c :: cs1, p)
  | [] => (acc, [], p)

/-- Python-dict insertion: a duplicate key keeps its first position and takes
the last value. -/
def dictInsert (ps : List (String × JValue)) (k : String) (v : JValue) :
    List (String × JValue) :=
  if ps.any (fun q => q.1 == k) then ps.map (fun q => if q.1 == k then (k, v) else q)
  else ps ++ [(k, v)]

mutual
/-- One value (`json.scanner.py_make_scanner.scan_once`), fuel-indexed; the
fuel never runs out for the `length + 1` budget supplied by `pyJsonLoads`. -/
def parseValue (fuel : Nat) (cs : List Char) (p : Nat) :
    Except JErr (JValue × List Char × Nat) :=
  match fuel with
  | 0 => .error ⟨p, "Expecting value"⟩
  | f + 1 =>
    match cs with
    | [] => .error ⟨p, "Expecting value"⟩
    | c :: cs1 =>
      if c = '"' then
        match scanStringAux (cs1.length + 1) p [] cs1 (p + 1) with
        | .error e => .error e
        | .ok (s, cs2, p2) => .ok (.str s, cs2, p2)
      else if c = '{' then
        let r1 := skipWs cs1 (p + 1)
        match r1.1 with
        | c2 :: r =>
          if c2 = '}' then .ok (.obj [], r, r1.2 + 1)
          else parseObjLoop f [] (c2 :: r) r1.2
        | [] => parseObjLoop f [] [] r1.2
      else if c = '[' then
        let r1 := skipWs cs1 (p + 1)
        match r1.1 with
        | c2 :: r =>
          if c2 = ']' then .ok (.arr [], r, r1.2 + 1)
          else parseArrLoop f [] (c2 :: r) r1.2
        | [] => parseArrLoop f [] [] r1.2
      else if c = 'n' then
        match cs1 with
        | 'u' :: 'l' :: 'l' :: r => .ok (.null, r, p + 4)
        | _ => .error ⟨p, "Expecting value"⟩
      else if c = 't' then
        match cs1 with
        | 'r' :: 'u' :: 'e' :: r => .ok (.bool true, r, p + 4)
        | _ => .error ⟨p, "Expecting value"⟩
      else if c = 'f' then
        match cs1 with
        | 'a' :: 'l' :: 's' :: 'e' :: r => .ok (.bool false, r, p + 5)
        | _ => .error ⟨p, "Expecting value"⟩
      else if c = '0' then .ok (.int 0, cs1, p + 1)
      else if isDigitC c then
        let r1 := scanDigits (digitVal c) cs1 (p + 1)
        .ok (.int r1.1, r1.2.1, r1.2.2)
      else if c = '-' then
        match cs1 with
        | d :: r =>
          if d = '0' then .ok (.int 0, r, p + 2)
          else if isDigitC d then
            let r1 := scanDigits (digitVal d) r (p + 2)
            .ok (.int (-(r1.1 : Int)), r1.2.1, r1.2.2)
          else .error ⟨p, "Expecting value"⟩
        | [] => .error ⟨p, "Expecting value"⟩
      else .error ⟨p, "Expecting value"⟩
termination_by structural fuel
/-- The item loop of `json.decoder.JSONArray`; `cs`/`p` point at the first
character of the next item. -/
def parseArrLoop (fuel : Nat) (acc : List JValue) (cs : List Char) (p : Nat) :
    Except JErr (JValue × List Char × Nat) :=
  match fuel with
  | 0 => .error ⟨p, "Expecting value"⟩
  | f + 1 =>
    match parseValue f cs p with
    | .error e => .error e
    | .ok (v, cs1, p1) =>
      let r2 := skipWs cs1 p1
      match r2.1 with
      | c2 :: r =>
        if c2 = ']' then .ok (.arr (acc ++ [v]), r, r2.2 + 1)
        else if c2 = ',' then
          let r3 := skipWs r (r2.2 + 1)
          parseArrLoop f (acc ++ [v]) r3.1 r3.2
        else .error ⟨r2.2, "Expecting \x27,\x27 delimiter"⟩
      | [] => .error ⟨r2.2, "Expecting \x27,\x27 delimiter"⟩
termination_by structural fuel
/-- The item loop of `json.decoder.JSONObject`; `cs`/`p` point at the opening
quote of the next key. -/
def parseObjLoop (fuel : Nat) (acc : List (String × JValue)) (cs : List Char) (p : Nat) :
    Except JErr (JValue × List Char × Nat) :=
  match fuel with
  | 0 => .error ⟨p, "Expecting value"⟩
  | f + 1 =>
    match cs with
    | c0 :: cs1 =>
      if c0 = '"' then
        match scanStringAux (cs1.length + 1) p [] cs1 (p + 1) with
        | .error e => .error e
        | .ok (k, cs2, p2) =>
          let r3 := skipWs cs2 p2
          match r3.1 with
          | c3 :: r =>
            if c3 = ':' then
              let r4 := skipWs r (r3.2 + 1)
              match parseValue f r4.1 r4.2 with
              | .error e => .error e
              | .ok (v, cs5, p5) =>
                let acc1 := dictInsert acc k v
                let r6 := skipWs cs5 p5
                match r6.1 with
                | c6 :: r7 =>
                  if c6 = '}' then .ok (.obj acc1, r7, r6.2 + 1)
                  else if c6 = ',' then
                    let r8 := skipWs r7 (r6.2 + 1)
                    parseObjLoop f acc1 r8.1 r8.2
                  else .error ⟨r6.2, "Expecting \x27,\x27 delimiter"⟩
                | [] => .error ⟨r6.2, "Expecting \x27,\x27 delimiter"⟩
            else .error ⟨r3.2, "Expecting \x27:\x27 delimiter"⟩
          | [] => .error ⟨r3.2, "Expecting \x27:\x27 delimiter"⟩
      else .error ⟨p, "Expecting property name enclosed in double quotes"⟩
    | [] => .error ⟨p, "Expecting property name enclosed in double quotes"⟩
termination_by structural fuel
end

/-- Model of `json.loads`: skip leading whitespace, scan one value, skip
trailing whitespace, and reject any remaining text as `Extra data`
(`json.decoder.JSONDecoder.decode`/`raw_decode`). -/
def pyJsonLoads (s : String) : Except JErr JValue :=
  let cs := s.data
  let r1 := skipWs cs 0
  match parseValue (cs.length + 1) r1.1 r1.2 with
  | .error e => .error e
  | .ok (v, cs2, p2) =>
    let r3 := skipWs cs2 p2
    match r3.1 with
    | [] => .ok v
    | _ => .error ⟨r3.2, "Extra data"⟩

/-- The 1-based line of a character offset (`JSONDecodeError.lineno`:
`doc.count(chr(10), 0, pos) + 1`). -/
def lineOf (s : String) (pos : Nat) : Nat :=
  ((s.data.take pos).count '\n') + 1

/-- The 1-based column of a character offset (`JSONDecodeError.colno`:
`pos - doc.rfind(chr(10), 0, pos)`). -/
def colOf (s : String) (pos : Nat) : Nat :=
  match (s.data.take pos).reverse.findIdx? (fun c => c == '\n') with
  | some k => k + 1
  | none => pos + 1

/-! ## Python string/number helpers used by `main` -/

/-- Decimal string of a natural number (Python `str`). -/
def natStr (n : Nat) : String :=
  ⟨natRepr n⟩

/-- Decimal string of an integer (Python `str`). -/
def intStr (n : Int) : String :=
  ⟨intRepr n⟩

/-- Python `str(bool)`. -/
def pyBoolStr : Bool → String
  | true => "True"
  | false => "False"

/-- Model of `str.rstrip()` (trailing ASCII whitespace removed). -/
def pyRstrip (s : String) : String :=
  ⟨(s.data.reverse.dropWhile isPyWsChar).reverse⟩

/-- Model of `str.lower()` (ASCII case folding). -/
def pyLower (s : String) : String :=
  ⟨s.data.map Char.toLower⟩

/-- Digit run of Python `int(str)`, allowing single underscores between
digits. -/
def pyDigitsAux (acc : Nat) : List Char → Option Nat
  | [] => some acc
  | '_' :: c :: rest =>
    if isDigitC c then pyDigitsAux (acc * 10 + digitVal c) rest else none
  | c :: rest =>
    if isDigitC c then pyDigitsAux (acc * 10 + digitVal c) rest else none

/-- Digits after the optional sign: the first character must be a digit
(no leading underscore). -/
def pyIntCore (neg : Bool) (ds : List Char) : Option Int :=
  match ds with
  | c :: _ =>
    if isDigitC c then (pyDigitsAux 0 ds).map (fun n => if neg then -(n : Int) else (n : Int))
    else none
  | [] => none

/-- Model of Python `int(str)`: strip whitespace, optional sign, decimal
digits (underscores allowed between digits); anything else raises
`ValueError`, modelled as `none`. -/
def pyIntParse (s : String) : Option Int :=
  let t := ((s.data.dropWhile isPyWsChar).reverse.dropWhile isPyWsChar).reverse
  match t with
  | '-' :: ds => pyIntCore true ds
  | '+' :: ds => pyIntCore false ds
  | ds => pyIntCore false ds

/-- Python `repr` of one character inside a string repr, for quote
character `q`. -/
def pyStrReprChar (q c : Char) : List Char :=
  if c = '\\' then ['\\', '\\']
  else if c = q then ['\\', q]
  else if c = '\t' then ['\\', 't']
  else if c = '\n' then ['\\', 'n']
  else if c = '\r' then ['\\', 'r']
  else if c.toNat < 0x20 || c.toNat == 0x7f then
    ['\\', 'x', hexDigitChar (c.toNat / 16), hexDigitChar (c.toNat % 16)]
  else [c]

/-- Python `repr(str)`: single quotes, double quotes when the string holds a
single quote but no double quote. -/
def pyStrRepr (s : String) : String :=
  let q : Char := if s.data.contains '\x27' && !(s.data.contains '"') then '"' else '\x27'
  ⟨q :: s.data.foldr (fun c acc => pyStrReprChar q c ++ acc) [q]⟩

mutual
/-- Python `repr` of a JSON value (approximate for non-printable corner
cases; only reachable through the unknown-command message). -/
def pyRepr (v : JValue) : String :=
  match v with
  | .null => "None"
  | .bool true => "True"
  | .bool false => "False"
  | .int n => intStr n
  | .str s => pyStrRepr s
  | .arr [] => "[]"
  | .arr (x :: xs) => "[" ++ pyRepr x ++ pyReprListRest xs ++ "]"
  | .obj [] => "\x7b\x7d"
  | .obj ((k, v) :: ps) =>
      "\x7b" ++ pyStrRepr k ++ ": " ++ pyRepr v ++ pyReprPairsRest ps ++ "\x7d"
termination_by structural v
/-- Remaining list elements of a `repr`. -/
def pyReprListRest (l : List JValue) : String :=
  match l with
  | [] => ""
  | y :: ys => ", " ++ pyRepr y ++ pyReprListRest ys
termination_by structural l
/-- Remaining dict items of a `repr`. -/
def pyReprPairsRest (l : List (String × JValue)) : String :=
  match l with
  | [] => ""
  | (k, v) :: qs => ", " ++ pyStrRepr k ++ ": " ++ pyRepr v ++ pyReprPairsRest qs
termination_by structural l
end

/-- Python `str(x)` as used by an f-string: identity on strings, `repr`-style
for everything else. -/
def pyStrFormat (v : JValue) : String :=
  match v with
  | .str s => s
  | v => pyRepr v

/-! ## The plugin model (`check.py`) -/

/-- Per-file outcome of `validate_json_file` (spec §3 `FileOutcome`). -/
inductive FileOutcome where
  | valid
  | needsFormatting (formatted : String)
  | err (msg : String)
deriving DecidableEq

/-- The file system: a partial map from paths to contents.  `none` models
`FileNotFoundError` on `open`. -/
def FS : Type := String → Option String

/-- Model of `validate_json_file(filepath, indent_size, sort_keys)`
(check.py lines 12-48). -/
def validate_json_file (filepath : String) (indent_size : Int) (sort_keys : Bool)
    (fs : FS) : FileOutcome :=
  match fs filepath with
  | none => .err ("File not found: " ++ filepath)
  | some content =>
    match pyJsonLoads content with
    | .error e =>
      .err ("Invalid JSON at line " ++ natStr (lineOf content e.pos) ++
        ", column " ++ natStr (colOf content e.pos) ++ ": " ++ e.msg)
    | .ok data =>
      let formatted := pyJsonDumps indent_size sort_keys data
      if formatted ≠ pyRstrip content then .needsFormatting formatted
      else .valid

/-- Python exceptions that would escape `main` uncaught. -/
inductive PyExc where
  | attributeError
  | typeError
  | valueError
deriving DecidableEq

/-- The three response shapes `main` can print (spec §6): plain success,
plain failure, and the formatting-failure shape carrying `modified` and
`output`. -/
inductive Response where
  | success (output : String)
  | failure (error suggestion : String)
  | failureFmt (error suggestion : String) (modified : List String) (output : String)
deriving DecidableEq

/-- Python `dict.get(key, default)`. -/
def getField (kvs : List (String × JValue)) (key : String) (dflt : JValue) : JValue :=
  match kvs.find? (fun q => q.1 == key) with
  | some q => q.2
  | none => dflt

/-- Python iteration over a value (`for filepath in files`): lists yield their
elements, strings their characters, dicts their keys; other values raise
`TypeError`. -/
def pyIter : JValue → Except PyExc (List JValue)
  | .arr xs => .ok xs
  | .str s => .ok (s.data.map (fun c => .str ⟨[c]⟩))
  | .obj kvs => .ok (kvs.map (fun q => .str q.1))
  | _ => .error .typeError

/-- Python `x == "lit"` for a JSON value: only equal strings compare equal. -/
def pyEqStr (v : JValue) (t : String) : Bool :=
  match v with
  | .str s => s == t
  | _ => false

/-- Python `str.endswith` for one suffix. -/
def pyEndsWith (s suffix : String) : Bool :=
  suffix.data.isSuffixOf s.data

/-- The suffix filter `filepath.endswith((".json", ".jsonc"))` (check.py
line 88). -/
def pyEndsWithJsonFamily (fp : String) : Bool :=
  pyEndsWith fp ".json" || pyEndsWith fp ".jsonc"

/-- The per-file `output` line for a file that needs formatting (check.py
line 96). -/
def fmtLine (fp : String) (ind : Int) (sk : Bool) : String :=
  fp ++ ": Needs formatting (indent=" ++ intStr ind ++ ", sort_keys=" ++ pyBoolStr sk ++ ")"

/-- The file loop of `main` (check.py lines 83-97): returns the accumulated
`errors`, `modified` and `output_lines`, or the exception a non-string
element raises at `filepath.endswith`. -/
def processFiles (items : List JValue) (ind : Int) (sk : Bool) (fs : FS) :
    Except PyExc (List String × List String × List String) :=
  match items with
  | [] => .ok ([], [], [])
  | f :: rest =>
    match f with
    | .str fp =>
      if pyEndsWithJsonFamily fp then
        match processFiles rest ind sk fs with
        | .error e => .error e
        | .ok (es, ms, ls) =>
          match validate_json_file fp ind sk fs with
          | .err m => .ok ((fp ++ ": " ++ m) :: es, ms, ls)
          | .needsFormatting _ => .ok (es, fp :: ms, fmtLine fp ind sk :: ls)
          | .valid => .ok (es, ms, ls)
      else processFiles rest ind sk fs
    | _ => .error .attributeError

/-- Model of `main` after the stdin payload has been parsed (check.py lines
64-124).  `indentEnv`/`sortEnv` are the raw `INDENT_SIZE`/`SORT_KEYS`
environment values; the result is the printed response and the exit status,
or the uncaught exception. -/
def runRequest (input : JValue) (indentEnv sortEnv : Option String) (fs : FS) :
    Except PyExc (Response × Nat) :=
  match input with
  | .obj kvs =>
    let command := getField kvs "command" (.str "")
    let files := getField kvs "files" (.arr [])
    match pyIntParse (indentEnv.getD "2") with
    | none => .error .valueError
    | some indent_size =>
      let sort_keys := pyLower (sortEnv.getD "false") == "true"
      if pyEqStr command "check" = false then
        .ok (.failure ("Unknown command: " ++ pyStrFormat command) "Supported commands: check", 1)
      else
        match pyIter files with
        | .error e => .error e
        | .ok items =>
          match processFiles items indent_size sort_keys fs with
          | .error e => .error e
          | .ok (errors, modified, output_lines) =>
            if errors ≠ [] then
              .ok (.failure (String.intercalate "\n" errors)
                "Fix JSON syntax errors in the listed files", 1)
            else if modified ≠ [] then
              .ok (.failureFmt (natStr modified.length ++ " file(s) need formatting")
                ("Run formatter with indent=" ++ intStr indent_size ++
                  " and sort_keys=" ++ pyBoolStr sort_keys)
                modified (String.intercalate "\n" output_lines), 1)
            else
              .ok (.success ("All " ++ natStr items.length ++
                " JSON file(s) are valid and properly formatted"), 0)
  | _ => .error .attributeError

/-- Model of the whole `main` (check.py lines 50-124): parse stdin, then run
the request. -/
def mainRun (stdin : String) (indentEnv sortEnv : Option String) (fs : FS) :
    Except PyExc (Response × Nat) :=
  match pyJsonLoads stdin with
  | .error _ => .ok (.failure "Invalid input JSON" "Plugin expects valid JSON input via stdin", 1)
  | .ok input => runRequest input indentEnv sortEnv fs

/-! ## Characterizing the file loop -/

/-- The error entries accumulated by the file loop, in input order. -/
def errorsOf (paths : List String) (ind : Int) (sk : Bool) (fs : FS) : List String :=
  paths.filterMap (fun fp =>
    if pyEndsWithJsonFamily fp then
      match validate_json_file fp ind sk fs with
      | .err m => some (fp ++ ": " ++ m)
      | _ => none
    else none)

/-- The `modified` paths accumulated by the file loop, in input order. -/
def modifiedOf (paths : List String) (ind : Int) (sk : Bool) (fs : FS) : List String :=
  paths.filterMap (fun fp =>
    if pyEndsWithJsonFamily fp then
      match validate_json_file fp ind sk fs with
      | .needsFormatting _ => some fp
      | _ => none
    else none)

/-- The `output` lines accumulated by the file loop, in input order. -/
def linesOf (paths : List String) (ind : Int) (sk : Bool) (fs : FS) : List String :=
  paths.filterMap (fun fp =>
    if pyEndsWithJsonFamily fp then
      match validate_json_file fp ind sk fs with
      | .needsFormatting _ => some (fmtLine fp ind sk)
      | _ => none
    else none)

/-! ## Remaining auxiliary definitions (well-formedness, fuel measure) -/

/-- Is the response the success shape?  The exit status mirrors this. -/
def isSuccessResp : Response → Bool
  | .success _ => true
  | _ => false

/-- No duplicate keys among an object's items (automatic for parsed Python
dicts). -/
def keysNodupB : List (String × JValue) → Bool
  | [] => true
  | (k, _) :: r => !(r.any (fun q => q.1 == k)) && keysNodupB r

mutual
/-- Well-formedness: every object in the value has duplicate-free keys. -/
def wfV (v : JValue) : Bool :=
  match v with
  | .arr xs => wfList xs
  | .obj kvs => keysNodupB kvs && wfPairs kvs
  | _ => true
termination_by structural v
/-- Well-formedness of a list of values. -/
def wfList (l : List JValue) : Bool :=
  match l with
  | [] => true
  | x :: xs => wfV x && wfList xs
termination_by structural l
/-- Well-formedness of an object's items. -/
def wfPairs (l : List (String × JValue)) : Bool :=
  match l with
  | [] => true
  | (_, v) :: r => wfV v && wfPairs r
termination_by structural l
end

mutual
/-- Parser fuel needed for a value (an overapproximation that the supplied
`length + 1` budget always dominates). -/
def needV (v : JValue) : Nat :=
  match v with
  | .arr xs => 1 + needL xs
  | .obj kvs => 1 + needP kvs
  | _ => 1
termination_by structural v
/-- Fuel needed by the array item loop. -/
def needL (l : List JValue) : Nat :=
  match l with
  | [] => 0
  | x :: xs => 1 + needV x + needL xs
termination_by structural l
/-- Fuel needed by the object item loop. -/
def needP (l : List (String × JValue)) : Nat :=
  match l with
  | [] => 0
  | (_, v) :: r => 1 + needV v + needP r
termination_by structural l
end

/-- Continuations after a printed value never begin with a digit, so the
number scanner stops exactly at the printed boundary. -/
def restOk : List Char → Prop
  | [] => True
  | c :: _ => isDigitC c = false

/-! ## Concrete evaluations of the model -/

example :
    pyJsonDumps 2 true (.obj [("b", .int 1), ("a", .arr [.int 2, .str "é\n"])]) =
      "\x7b\n  \"a\": [\n    2,\n    \"é\\n\"\n  ],\n  \"b\": 1\n\x7d" := rfl

example : pyJsonDumps 2 false (.obj []) = "\x7b\x7d" := rfl

example : pyJsonDumps 0 false (.arr [.int (-3)]) = "[\n-3\n]" := rfl

example : pyJsonLoads "\x7b\"a\": 1\x7d" = .ok (.obj [("a", .int 1)]) := rfl

example :
    pyJsonLoads "\x7ba:1\x7d" =
      .error ⟨1, "Expecting property name enclosed in double quotes"⟩ := rfl

example : pyJsonLoads "not json" = .error ⟨0, "Expecting value"⟩ := rfl

example : pyJsonLoads "[1, 2,]" = .error ⟨6, "Expecting value"⟩ := rfl

example :
    pyJsonLoads "\x7b\n  \"a\": [\n    2,\n    \"é\\n\"\n  ],\n  \"b\": 1\n\x7d" =
      .ok (.obj [("a", .arr [.int 2, .str "é\n"]), ("b", .int 1)]) := rfl

example : pyJsonLoads "\"a\\ud83d\\ude00b\"" = .ok (.str "a😀b") := rfl

example :
    mainRun "not json" none none (fun _ => none) =
      .ok (.failure "Invalid input JSON" "Plugin expects valid JSON input via stdin", 1) := rfl

example :
    mainRun "\x7b\"command\": \"check\", \"files\": [\"ok.json\"]\x7d" none none
      (fun p => if p = "ok.json" then some "\x7b\n  \"a\": 1\n\x7d" else none) =
      .ok (.success "All 1 JSON file(s) are valid and properly formatted", 0) := rfl

example :
    mainRun "\x7b\"command\": \"check\", \"files\": [\"bad.json\"]\x7d" none none
      (fun p => if p = "bad.json" then some "\x7ba:1\x7d" else none) =
      .ok (.failure
        "bad.json: Invalid JSON at line 1, column 2: Expecting property name enclosed in double quotes"
        "Fix JSON syntax errors in the listed files", 1) := rfl

example : mainRun "[1, 2]" none none (fun _ => none) = .error .attributeError := rfl

example :
    mainRun "\x7b\"command\": \"fmt\"\x7d" none none (fun _ => none) =
      .ok (.failure "Unknown command: fmt" "Supported commands: check", 1) := rfl

theorem processFiles_map_str (paths : List String) (ind : Int) (sk : Bool) (fs : FS) :
    processFiles (paths.map .str) ind sk fs =
      .ok (errorsOf paths ind sk fs, modifiedOf paths ind sk fs, linesOf paths ind sk fs) := by
  induction paths with
  | nil => rfl
  | cons fp rest ih =>
    simp only [List.map_cons, processFiles, ih, errorsOf, modifiedOf, linesOf,
      List.filterMap_cons]
    by_cases h : pyEndsWithJsonFamily fp = true
    · cases hv : validate_json_file fp ind sk fs <;>
        simp [h, hv, errorsOf, modifiedOf, linesOf]
    · simp only [Bool.not_eq_true] at h
      simp [h, errorsOf, modifiedOf, linesOf]

/-- The aggregation of `main` for a `check` request over string paths,
phrased through the three accumulator lists. -/
theorem runRequest_check_eq (kvs : List (String × JValue)) (paths : List String)
    (iE sE : Option String) (fs : FS) (i : Int) (sk : Bool)
    (hcmd : getField kvs "command" (.str "") = .str "check")
    (hfiles : getField kvs "files" (.arr []) = .arr (paths.map .str))
    (hind : pyIntParse (iE.getD "2") = some i)
    (hsk : (pyLower (sE.getD "false") == "true") = sk) :
    runRequest (.obj kvs) iE sE fs =
      (if errorsOf paths i sk fs ≠ [] then
        .ok (.failure (String.intercalate "\n" (errorsOf paths i sk fs))
          "Fix JSON syntax errors in the listed files", 1)
      else if modifiedOf paths i sk fs ≠ [] then
        .ok (.failureFmt (natStr (modifiedOf paths i sk fs).length ++ " file(s) need formatting")
          ("Run formatter with indent=" ++ intStr i ++ " and sort_keys=" ++ pyBoolStr sk)
          (modifiedOf paths i sk fs) (String.intercalate "\n" (linesOf paths i sk fs)), 1)
      else .ok (.success ("All " ++ natStr paths.length ++
        " JSON file(s) are valid and properly formatted"), 0)) := by
  simp only [runRequest, hcmd, hfiles, hind, hsk]
  have hpe : pyEqStr (.str "check") "check" = true := rfl
  simp only [hpe, Bool.true_eq_false, if_false, pyIter, processFiles_map_str,
    List.length_map]

/-! ## Claim C6 -/

/-- C10: `.jsonc` files get no special treatment: the suffix filter admits
them and the same strict parser runs on their content, so JSONC-only syntax
(comments, trailing commas) produces an `Error` outcome, never `Valid` or
`NeedsFormatting`. -/
theorem c10_jsonc_strict (ind : Int) (sk : Bool) :
    (∀ fp : String, pyEndsWith fp ".jsonc" = true → pyEndsWithJsonFamily fp = true)
    ∧ (∀ fs : FS, fs "cfg.jsonc" = some "\x7b\n  // comment\n\x7d" →
        validate_json_file "cfg.jsonc" ind sk fs =
          .err "Invalid JSON at line 2, column 3: Expecting property name enclosed in double quotes")
    ∧ (∀ fs : FS, fs "arr.jsonc" = some "[1, 2,]" →
        validate_json_file "arr.jsonc" ind sk fs =
          .err "Invalid JSON at line 1, column 7: Expecting value") := by
  refine ⟨?_, ?_, ?_⟩
  · intro fp h; simp [pyEndsWithJsonFamily, h]
  · intro fs h; simp only [validate_json_file, h]; rfl
  · intro fs h; simp only [validate_json_file, h]; rfl

theorem c10_jsonc_strict_witness :
    pyEndsWithJsonFamily "cfg.jsonc" = true
    ∧ validate_json_file "cfg.jsonc" 2 false
        (fun p => if p = "cfg.jsonc" then some "\x7b\n  // comment\n\x7d" else none) =
      .err "Invalid JSON at line 2, column 3: Expecting property name enclosed in double quotes"
    ∧ validate_json_file "arr.jsonc" 2 false
        (fun p => if p = "arr.jsonc" then some "[1, 2,]" else none) =
      .err "Invalid JSON at line 1, column 7: Expecting value" :=
  ⟨(c10_jsonc_strict 2 false).1 "cfg.jsonc" rfl,
    (c10_jsonc_strict 2 false).2.1 _ rfl,
    (c10_jsonc_strict 2 false).2.2 _ rfl⟩

/-! ## Claim C8 (corrected) -/

theorem processFiles_total (items : List JValue) (ind : Int) (sk : Bool) (fs : FS)
    (h : ∀ f ∈ items, ∃ s, f = .str s) :
    ∃ t, processFiles items ind sk fs = .ok t := by
  induction items with
  | nil => exact ⟨_, rfl⟩
  | cons f rest ih =>
    obtain ⟨s, rfl⟩ := h f (List.mem_cons_self f rest)
    obtain ⟨t, ht⟩ := ih (fun g hg => h g (List.mem_cons_of_mem _ hg))
    obtain ⟨es, ms, ls⟩ := t
    by_cases hend : pyEndsWithJsonFamily s = true
    · cases hv : validate_json_file s ind sk fs with
      | valid => exact ⟨(es, ms, ls), by simp [processFiles, hend, ht, hv]⟩
      | needsFormatting f =>
        exact ⟨(es, s :: ms, fmtLine s ind sk :: ls), by simp [processFiles, hend, ht, hv]⟩
      | err m => exact ⟨((s ++ ": " ++ m) :: es, ms, ls), by simp [processFiles, hend, ht, hv]⟩
    · simp only [Bool.not_eq_true] at hend
      exact ⟨(es, ms, ls), by simp [processFiles, hend, ht]⟩

theorem skipWs_ws_append (l : List Char) (rest : List Char) (p : Nat)
    (h : ∀ c ∈ l, isJsonWsChar c = true) :
    skipWs (l ++ rest) p = skipWs rest (p + l.length) := by
  induction l generalizing p with
  | nil => simp
  | cons c cs ih =>
    have hc := h c (List.mem_cons_self c cs)
    simp only [List.cons_append, skipWs, hc, if_true]
    rw [show cs.append rest = cs ++ rest from rfl,
      ih (p + 1) (fun d hd => h d (List.mem_cons_of_mem _ hd))]
    congr 1
    simp only [List.length_cons]
    omega

theorem skipWs_not_ws (c : Char) (cs : List Char) (p : Nat)
    (h : isJsonWsChar c = false) :
    skipWs (c :: cs) p = (c :: cs, p) := by
  simp [skipWs, h]

theorem nlInd_ws (ind lvl : Nat) : ∀ c ∈ nlInd ind lvl, isJsonWsChar c = true := by
  intro c hc
  simp only [nlInd, List.mem_cons, List.eq_of_mem_replicate] at hc
  rcases hc with h | h
  · subst h; rfl
  · rw [List.eq_of_mem_replicate h]; rfl

theorem digitChar_facts : ∀ n, n < 10 →
    isDigitC (digitChar n) = true ∧ digitVal (digitChar n) = n ∧
    isJsonWsChar (digitChar n) = false ∧ isPyWsChar (digitChar n) = false ∧
    (0 < n → digitChar n ≠ '0') ∧ (digitChar n).toNat = 48 + n := by
  decide

theorem hexVal_hexDigitChar : ∀ n, n < 16 → hexVal (hexDigitChar n) = some n := by
  decide

theorem natReprAux_digits (fuel : Nat) :
    ∀ n, n < fuel → ∀ c ∈ natReprAux fuel n, isDigitC c = true := by
  induction fuel with
  | zero => intro n h; omega
  | succ f ih =>
    intro n h c hc
    simp only [natReprAux] at hc
    by_cases h10 : n < 10
    · simp only [h10, if_true, List.mem_singleton] at hc
      subst hc
      exact (digitChar_facts n h10).1
    · simp only [h10, if_false, List.mem_append, List.mem_singleton] at hc
      rcases hc with h1 | h1
      · exact ih (n / 10) (by omega) c h1
      · subst h1
        exact (digitChar_facts (n % 10) (by omega)).1

theorem natReprAux_head (fuel : Nat) :
    ∀ n, n < fuel → ∃ c cs, natReprAux fuel n = c :: cs ∧ isDigitC c = true ∧
      (0 < n → c ≠ '0') := by
  induction fuel with
  | zero => intro n h; omega
  | succ f ih =>
    intro n h
    by_cases h10 : n < 10
    · refine ⟨digitChar n, [], by simp [natReprAux, h10], (digitChar_facts n h10).1, ?_⟩
      intro hn
      exact (digitChar_facts n h10).2.2.2.2.1 hn
    · obtain ⟨c, cs, hrep, hdig, hz⟩ := ih (n / 10) (by omega)
      refine ⟨c, cs ++ [digitChar (n % 10)], ?_, hdig, fun _ => hz (by omega)⟩
      simp [natReprAux, h10, hrep]

theorem foldl_natReprAux (fuel : Nat) :
    ∀ n acc, n < fuel →
      List.foldl (fun a c => a * 10 + digitVal c) acc (natReprAux fuel n) =
        acc * 10 ^ (natReprAux fuel n).length + n := by
  induction fuel with
  | zero => intro n acc h; omega
  | succ f ih =>
    intro n acc h
    by_cases h10 : n < 10
    · simp [natReprAux, h10, (digitChar_facts n h10).2.1]
    · have hrec := ih (n / 10) acc (by omega)
      simp only [natReprAux, h10, if_false, List.foldl_append, List.length_append,
        List.foldl_cons, List.foldl_nil, List.length_cons, List.length_nil, hrec,
        (digitChar_facts (n % 10) (by omega)).2.1]
      have : 10 ^ (0 + 1) = 10 := by norm_num
      rw [pow_succ]
      ring_nf
      omega

theorem scanDigits_append_digits (l : List Char) :
    ∀ (rest : List Char) (acc p : Nat), (∀ c ∈ l, isDigitC c = true) → restOk rest →
      ∃ p2, scanDigits acc (l ++ rest) p =
        (List.foldl (fun a c => a * 10 + digitVal c) acc l, rest, p2) := by
  induction l with
  | nil =>
    intro rest acc p _ hr
    cases rest with
    | nil => exact ⟨p, rfl⟩
    | cons c cs =>
      simp only [restOk] at hr
      exact ⟨p, by simp [scanDigits, hr]⟩
  | cons c cs ih =>
    intro rest acc p h hr
    have hc := h c (List.mem_cons_self c cs)
    simp only [List.cons_append, scanDigits, hc, if_true, List.foldl_cons]
    exact ih rest (acc * 10 + digitVal c) (p + 1)
      (fun d hd => h d (List.mem_cons_of_mem _ hd)) hr

theorem digit_not_special (d : Char) (h : isDigitC d = true) :
    d ≠ '"' ∧ d ≠ '\x7b' ∧ d ≠ '[' ∧ d ≠ 'n' ∧ d ≠ 't' ∧ d ≠ 'f' ∧ d ≠ '-' ∧
    isJsonWsChar d = false ∧ d ≠ ']' ∧ d ≠ '\x7d' ∧ d ≠ ',' := by
  refine ⟨fun e => absurd (e ▸ h) (by decide), fun e => absurd (e ▸ h) (by decide),
    fun e => absurd (e ▸ h) (by decide), fun e => absurd (e ▸ h) (by decide),
    fun e => absurd (e ▸ h) (by decide), fun e => absurd (e ▸ h) (by decide),
    fun e => absurd (e ▸ h) (by decide), ?_,
    fun e => absurd (e ▸ h) (by decide), fun e => absurd (e ▸ h) (by decide),
    fun e => absurd (e ▸ h) (by decide)⟩
  cases hw : isJsonWsChar d
  · rfl
  · exfalso
    simp only [isJsonWsChar, Bool.or_eq_true, decide_eq_true_eq] at hw
    rcases hw with ((e | e) | e) | e <;> (subst e; exact absurd h (by decide))

theorem parseValue_intRepr (fuel : Nat) (n : Int) (rest : List Char) (p : Nat)
    (hr : restOk rest) :
    ∃ p2, parseValue (fuel + 1) (intRepr n ++ rest) p = .ok (.int n, rest, p2) := by
  by_cases hneg : n < 0
  · have hm : 0 < n.natAbs := by omega
    obtain ⟨d, l, hrep, hdig, hz⟩ := natReprAux_head (n.natAbs + 1) n.natAbs (by omega)
    have hdigits : ∀ c ∈ l, isDigitC c = true := by
      intro c hc
      exact natReprAux_digits (n.natAbs + 1) n.natAbs (by omega) c
        (by rw [hrep]; exact List.mem_cons_of_mem _ hc)
    have hfold : List.foldl (fun a c => a * 10 + digitVal c) (digitVal d) l = n.natAbs := by
      have h0 := foldl_natReprAux (n.natAbs + 1) n.natAbs 0 (by omega)
      rw [hrep] at h0
      simpa using h0
    obtain ⟨p2, hscan⟩ := scanDigits_append_digits l rest (digitVal d) (p + 2) hdigits hr
    refine ⟨p2, ?_⟩
    rw [show intRepr n = '-' :: natReprAux (n.natAbs + 1) n.natAbs by
      simp [intRepr, hneg, natRepr], hrep]
    have hz' : d ≠ '0' := hz hm
    simp only [List.cons_append, parseValue]
    simp only [reduceIte, show isDigitC '-' = false from by decide, Bool.false_eq_true,
      if_false]
    rw [if_neg hz', if_pos hdig, hscan]
    simp only [hfold]
    have hval : -((n.natAbs : Nat) : Int) = n := by omega
    rw [hval]
    simp
  · by_cases h0 : n.toNat = 0
    · have hn0 : n = 0 := by omega
      subst hn0
      exact ⟨p + 1, by simp [intRepr, natRepr, natReprAux, digitChar, parseValue]⟩
    · obtain ⟨d, l, hrep, hdig, hz⟩ := natReprAux_head (n.toNat + 1) n.toNat (by omega)
      have hdigits : ∀ c ∈ l, isDigitC c = true := by
        intro c hc
        exact natReprAux_digits (n.toNat + 1) n.toNat (by omega) c
          (by rw [hrep]; exact List.mem_cons_of_mem _ hc)
      have hfold : List.foldl (fun a c => a * 10 + digitVal c) (digitVal d) l = n.toNat := by
        have hf := foldl_natReprAux (n.toNat + 1) n.toNat 0 (by omega)
        rw [hrep] at hf
        simpa using hf
      obtain ⟨p2, hscan⟩ := scanDigits_append_digits l rest (digitVal d) (p + 1) hdigits hr
      refine ⟨p2, ?_⟩
      rw [show intRepr n = natReprAux (n.toNat + 1) n.toNat by
        simp [intRepr, hneg, natRepr], hrep]
      obtain ⟨hq, hb, hk, hn, ht, hf, hmi, hws, _, _, _⟩ := digit_not_special d hdig
      have hz' : d ≠ '0' := hz (by omega)
      simp only [List.cons_append, parseValue]
      rw [if_neg hq, if_neg hb, if_neg hk, if_neg hn, if_neg ht, if_neg hf, if_neg hz',
        if_pos hdig, hscan]
      simp only [hfold]
      have hval : ((n.toNat : Nat) : Int) = n := by omega
      rw [hval]

theorem scanString_rt (l : List Char) :
    ∀ (fuel : Nat), l.length < fuel → ∀ (acc rest : List Char) (p b : Nat),
      ∃ p2, scanStringAux fuel b acc (escapeList l ++ '"' :: rest) p =
        .ok (⟨acc ++ l⟩, rest, p2) := by
  induction l with
  | nil =>
    intro fuel hf acc rest p b
    obtain ⟨f, rfl⟩ : ∃ f, fuel = f + 1 := ⟨fuel - 1, by omega⟩
    refine ⟨p + 1, ?_⟩
    simp only [escapeList, List.nil_append, List.append_nil, scanStringAux, reduceIte]
  | cons c l ih =>
    intro fuel hf acc rest p b
    obtain ⟨f, rfl⟩ : ∃ f, fuel = f + 1 := ⟨fuel - 1, by omega⟩
    have hlf : l.length < f := by simpa using hf
    simp only [escapeList, List.append_assoc]
    by_cases h1 : c = '"'
    · subst h1
      obtain ⟨p2, hp⟩ := ih f hlf (acc ++ ['"']) rest (p + 2) b
      refine ⟨p2, ?_⟩
      rw [show escapeChar '"' = ['\\', '"'] from rfl]
      simp only [List.cons_append, List.nil_append, scanStringAux, scanEscape,
        simpleEscape, reduceIte]
      simpa [List.append_assoc] using hp
    · by_cases h2 : c = '\\'
      · subst h2
        obtain ⟨p2, hp⟩ := ih f hlf (acc ++ ['\\']) rest (p + 2) b
        refine ⟨p2, ?_⟩
        rw [show escapeChar '\\' = ['\\', '\\'] from rfl]
        simp only [List.cons_append, List.nil_append, scanStringAux, scanEscape,
          simpleEscape, reduceIte]
        simpa [List.append_assoc] using hp
      · by_cases h3 : c = '\x08'
        · subst h3
          obtain ⟨p2, hp⟩ := ih f hlf (acc ++ ['\x08']) rest (p + 2) b
          refine ⟨p2, ?_⟩
          rw [show escapeChar '\x08' = ['\\', 'b'] from rfl]
          simp only [List.cons_append, List.nil_append, scanStringAux, scanEscape,
            simpleEscape, reduceIte]
          simpa [List.append_assoc] using hp
        · by_cases h4 : c = '\x0c'
          · subst h4
            obtain ⟨p2, hp⟩ := ih f hlf (acc ++ ['\x0c']) rest (p + 2) b
            refine ⟨p2, ?_⟩
            rw [show escapeChar '\x0c' = ['\\', 'f'] from rfl]
            simp only [List.cons_append, List.nil_append, scanStringAux, scanEscape,
              simpleEscape, reduceIte]
            simpa [List.append_assoc] using hp
          · by_cases h5 : c = '\n'
            · subst h5
              obtain ⟨p2, hp⟩ := ih f hlf (acc ++ ['\n']) rest (p + 2) b
              refine ⟨p2, ?_⟩
              rw [show escapeChar '\n' = ['\\', 'n'] from rfl]
              simp only [List.cons_append, List.nil_append, scanStringAux, scanEscape,
                simpleEscape, reduceIte]
              simpa [List.append_assoc] using hp
            · by_cases h6 : c = '\r'
              · subst h6
                obtain ⟨p2, hp⟩ := ih f hlf (acc ++ ['\r']) rest (p + 2) b
                refine ⟨p2, ?_⟩
                rw [show escapeChar '\r' = ['\\', 'r'] from rfl]
                simp only [List.cons_append, List.nil_append, scanStringAux, scanEscape,
                  simpleEscape, reduceIte]
                simpa [List.append_assoc] using hp
              · by_cases h7 : c = '\t'
                · subst h7
                  obtain ⟨p2, hp⟩ := ih f hlf (acc ++ ['\t']) rest (p + 2) b
                  refine ⟨p2, ?_⟩
                  rw [show escapeChar '\t' = ['\\', 't'] from rfl]
                  simp only [List.cons_append, List.nil_append, scanStringAux, scanEscape,
                    simpleEscape, reduceIte]
                  simpa [List.append_assoc] using hp
                · by_cases ht : c.toNat < 32
                  · obtain ⟨p2, hp⟩ := ih f hlf (acc ++ [c]) rest (p + 6) b
                    refine ⟨p2, ?_⟩
                    rw [show escapeChar c = ['\\', 'u', '0', '0',
                        hexDigitChar (c.toNat / 16), hexDigitChar (c.toNat % 16)] from by
                      simp [escapeChar, h1, h2, h3, h4, h5, h6, h7, ht]]
                    have hh : hex4 '0' '0' (hexDigitChar (c.toNat / 16))
                        (hexDigitChar (c.toNat % 16)) = some c.toNat := by
                      simp only [hex4, show hexVal '0' = some 0 from rfl,
                        hexVal_hexDigitChar _ (show c.toNat / 16 < 16 by omega),
                        hexVal_hexDigitChar _ (show c.toNat % 16 < 16 by omega)]
                      congr 1
                      omega
                    have hs1 : ¬ (0xD800 ≤ c.toNat ∧ c.toNat < 0xDC00) := by omega
                    have hs2 : ¬ (0xDC00 ≤ c.toNat ∧ c.toNat < 0xE000) := by omega
                    simp only [List.cons_append, List.nil_append, scanStringAux, scanEscape,
                      hh, hs1, hs2, reduceIte, if_false, Char.ofNat_toNat]
                    simpa [List.append_assoc] using hp
                  · obtain ⟨p2, hp⟩ := ih f hlf (acc ++ [c]) rest (p + 1) b
                    refine ⟨p2, ?_⟩
                    rw [show escapeChar c = [c] from by
                      simp [escapeChar, h1, h2, h3, h4, h5, h6, h7, ht]]
                    simp only [List.cons_append, List.nil_append, scanStringAux]
                    rw [if_neg h1, if_neg h2, if_neg (by omega : ¬ c.toNat < 0x20)]
                    simpa [List.append_assoc] using hp

theorem needV_pos (v : JValue) : 1 ≤ needV v := by
  cases v <;> simp [needV]

theorem ws_not_digit (c : Char) (h : isJsonWsChar c = true) : isDigitC c = false := by
  simp only [isJsonWsChar, Bool.or_eq_true, decide_eq_true_eq] at h
  rcases h with ((e | e) | e) | e <;> (subst e; decide)

theorem escapeList_length_ge (l : List Char) : l.length ≤ (escapeList l).length := by
  induction l with
  | nil => simp [escapeList]
  | cons c cs ih =>
    have hc : 1 ≤ (escapeChar c).length := by
      simp only [escapeChar]
      split
      · simp
      · split
        · simp
        · split
          · simp
          · split
            · simp
            · split
              · simp
              · split
                · simp
                · split
                  · simp
                  · split <;> simp
    simp only [escapeList, List.length_cons, List.length_append]
    omega

theorem printVal_head (ind lvl : Nat) (v : JValue) :
    ∃ c cs, printVal ind lvl v = c :: cs ∧ isJsonWsChar c = false ∧ c ≠ ']' ∧ c ≠ '\x7d' := by
  cases v with
  | null => exact ⟨'n', ['u', 'l', 'l'], by simp [printVal], by decide, by decide, by decide⟩
  | bool b =>
    cases b with
    | true =>
      exact ⟨'t', ['r', 'u', 'e'], by simp [printVal], by decide, by decide, by decide⟩
    | false =>
      exact ⟨'f', ['a', 'l', 's', 'e'], by simp [printVal], by decide, by decide, by decide⟩
  | int n =>
    by_cases hneg : n < 0
    · exact ⟨'-', natReprAux (n.natAbs + 1) n.natAbs,
        by simp [printVal, intRepr, hneg, natRepr], by decide, by decide, by decide⟩
    · obtain ⟨c, cs, hrep, hdig, _⟩ := natReprAux_head (n.toNat + 1) n.toNat (by omega)
      obtain ⟨_, _, _, _, _, _, _, hws, hrb, hbb, _⟩ := digit_not_special c hdig
      exact ⟨c, cs, by simp [printVal, intRepr, hneg, natRepr, hrep], hws, hrb, hbb⟩
  | str s =>
    exact ⟨'"', escapeList s.data ++ ['"'], by simp [printVal, encodeStr],
      by decide, by decide, by decide⟩
  | arr xs =>
    cases xs with
    | nil => exact ⟨'[', [']'], by simp [printVal], by decide, by decide, by decide⟩
    | cons x xs =>
      exact ⟨'[', nlInd ind (lvl + 1) ++ (printVal ind (lvl + 1) x ++
          (printListRest ind (lvl + 1) xs ++ (nlInd ind lvl ++ [']']))),
        by simp [printVal], by decide, by decide, by decide⟩
  | obj kvs =>
    match kvs with
    | [] => exact ⟨'\x7b', ['\x7d'], by simp [printVal], by decide, by decide, by decide⟩
    | (k, v) :: ps =>
      exact ⟨'\x7b', nlInd ind (lvl + 1) ++ (encodeStr k ++
          ':' :: ' ' :: (printVal ind (lvl + 1) v ++
            (printPairsRest ind (lvl + 1) ps ++ (nlInd ind lvl ++ ['\x7d'])))),
        by simp [printVal], by decide, by decide, by decide⟩

theorem keysNodupB_append_notMem (acc : List (String × JValue)) (k : String) (v : JValue)
    (ps : List (String × JValue)) (h : keysNodupB (acc ++ (k, v) :: ps) = true) :
    acc.any (fun q => q.1 == k) = false := by
  induction acc with
  | nil => rfl
  | cons q acc ih =>
    obtain ⟨k0, v0⟩ := q
    simp only [List.cons_append, keysNodupB, Bool.and_eq_true, Bool.not_eq_true'] at h
    obtain ⟨h1, h2⟩ := h
    simp only [List.any_eq_false] at h1
    simp only [List.any_cons, Bool.or_eq_false_iff]
    refine ⟨?_, ih h2⟩
    have hm := h1 (k, v) (by simp)
    simp only [beq_iff_eq] at hm
    simp only [beq_eq_false_iff_ne, ne_eq]
    exact fun e => hm e.symm

theorem dictInsert_fresh (acc : List (String × JValue)) (k : String) (v : JValue)
    (h : acc.any (fun q => q.1 == k) = false) :
    dictInsert acc k v = acc ++ [(k, v)] := by
  simp [dictInsert, h]

theorem restOk_of_ws_close (wsc : List Char) (cl : Char) (rest : List Char)
    (hws : ∀ c ∈ wsc, isJsonWsChar c = true) (hcl : isDigitC cl = false) :
    restOk (wsc ++ cl :: rest) := by
  cases wsc with
  | nil => exact hcl
  | cons w ws => exact ws_not_digit w (hws w (List.mem_cons_self w ws))

theorem restOk_listRest (ind lvl : Nat) (xs : List JValue) (wsc rest : List Char)
    (hws : ∀ c ∈ wsc, isJsonWsChar c = true) :
    restOk (printListRest ind lvl xs ++ (wsc ++ ']' :: rest)) := by
  cases xs with
  | nil =>
    simp only [printListRest, List.nil_append]
    exact restOk_of_ws_close wsc ']' rest hws (by decide)
  | cons y ys =>
    simp only [printListRest, List.cons_append]
    exact (by decide : isDigitC ',' = false)

theorem restOk_pairsRest (ind lvl : Nat) (ps : List (String × JValue)) (wsc rest : List Char)
    (hws : ∀ c ∈ wsc, isJsonWsChar c = true) :
    restOk (printPairsRest ind lvl ps ++ (wsc ++ '\x7d' :: rest)) := by
  cases ps with
  | nil =>
    simp only [printPairsRest, List.nil_append]
    exact restOk_of_ws_close wsc '\x7d' rest hws (by decide)
  | cons q qs =>
    obtain ⟨k, v⟩ := q
    simp only [printPairsRest, List.cons_append]
    exact (by decide : isDigitC ',' = false)

theorem stringMk_data (s : String) : String.mk s.data = s := rfl

theorem parse_print_rt (fuel : Nat) :
    (∀ (v : JValue) (ind lvl : Nat) (rest : List Char) (p : Nat),
      wfV v = true → needV v ≤ fuel → restOk rest →
      ∃ p2, parseValue fuel (printVal ind lvl v ++ rest) p = .ok (v, rest, p2))
    ∧ (∀ (x : JValue) (xs : List JValue) (acc : List JValue) (ind lvl : Nat)
        (wsc rest : List Char) (p : Nat),
      wfV x = true → wfList xs = true → 1 + needV x + needL xs ≤ fuel →
      (∀ c ∈ wsc, isJsonWsChar c = true) →
      ∃ p2, parseArrLoop fuel acc
          (printVal ind lvl x ++ (printListRest ind lvl xs ++ (wsc ++ ']' :: rest))) p =
        .ok (.arr (acc ++ x :: xs), rest, p2))
    ∧ (∀ (k : String) (v : JValue) (ps : List (String × JValue))
        (acc : List (String × JValue)) (ind lvl : Nat) (wsc rest : List Char) (p : Nat),
      wfV v = true → wfPairs ps = true → keysNodupB (acc ++ (k, v) :: ps) = true →
      1 + needV v + needP ps ≤ fuel → (∀ c ∈ wsc, isJsonWsChar c = true) →
      ∃ p2, parseObjLoop fuel acc
          (encodeStr k ++ ':' :: ' ' :: (printVal ind lvl v ++
            (printPairsRest ind lvl ps ++ (wsc ++ '\x7d' :: rest)))) p =
        .ok (.obj (acc ++ (k, v) :: ps), rest, p2)) := by
  induction fuel with
  | zero =>
    refine ⟨?_, ?_, ?_⟩
    · intro v _ _ _ _ _ hne _
      have := needV_pos v
      omega
    · intro x _ _ _ _ _ _ _ _ _ hne _
      omega
    · intro k v _ _ _ _ _ _ _ _ _ _ hne _
      omega
  | succ f ih =>
    obtain ⟨ihP, ihQ, ihR⟩ := ih
    refine ⟨?_, ?_, ?_⟩
    · -- parseValue on a printed value
      intro v ind lvl rest p hwf hneed hrest
      cases v with
      | null =>
        refine ⟨p + 4, ?_⟩
        simp [printVal, parseValue]
      | bool b =>
        cases b with
        | false =>
          refine ⟨p + 5, ?_⟩
          simp [printVal, parseValue]
        | true =>
          refine ⟨p + 4, ?_⟩
          simp [printVal, parseValue]
      | int n =>
        simpa [printVal] using parseValue_intRepr f n rest p hrest
      | str s =>
        obtain ⟨p2, hscan⟩ := scanString_rt s.data
          ((escapeList s.data ++ '"' :: rest).length + 1)
          (by
            have h1 := escapeList_length_ge s.data
            rw [List.length_append, List.length_cons]
            omega)
          [] rest (p + 1) p
        refine ⟨p2, ?_⟩
        simp only [printVal, encodeStr, List.cons_append, List.append_assoc, List.nil_append,
          parseValue, reduceIte, hscan]
      | arr xs =>
        cases xs with
        | nil =>
          refine ⟨p + 1 + 1, ?_⟩
          have hsw : skipWs (']' :: rest) (p + 1) = (']' :: rest, p + 1) :=
            skipWs_not_ws _ _ _ (by decide)
          simp [printVal, parseValue, hsw]
        | cons x xs =>
          have hwx : wfV x = true ∧ wfList xs = true := by
            simpa [wfV, wfList, Bool.and_eq_true] using hwf
          have hnb : 1 + needV x + needL xs ≤ f := by
            simp only [needV, needL] at hneed
            omega
          obtain ⟨c, cs, hpr, hcws, hcrb, hcbb⟩ := printVal_head ind (lvl + 1) x
          obtain ⟨p2, hloop⟩ := ihQ x xs [] ind (lvl + 1) (nlInd ind lvl) rest
            (p + 1 + (nlInd ind (lvl + 1)).length) hwx.1 hwx.2 hnb (nlInd_ws _ _)
          refine ⟨p2, ?_⟩
          rw [hpr] at hloop
          simp only [List.cons_append] at hloop
          simp only [printVal, List.cons_append, List.append_assoc, parseValue, reduceIte]
          rw [hpr]
          simp only [List.cons_append,
            skipWs_ws_append (nlInd ind (lvl + 1)) _ (p + 1) (nlInd_ws _ _),
            skipWs_not_ws c _ _ hcws]
          rw [if_neg hcrb]
          simpa [List.append_assoc] using hloop
      | obj kvs =>
        match kvs, hwf, hneed with
        | [], _, _ =>
          refine ⟨p + 1 + 1, ?_⟩
          have hsw : skipWs ('\x7d' :: rest) (p + 1) = ('\x7d' :: rest, p + 1) :=
            skipWs_not_ws _ _ _ (by decide)
          simp [printVal, parseValue, hsw]
        | (k, v) :: ps, hwf, hneed =>
          have hwv : keysNodupB ((k, v) :: ps) = true ∧ wfV v = true ∧ wfPairs ps = true := by
            have h1 : (keysNodupB ((k, v) :: ps) && wfPairs ((k, v) :: ps)) = true := hwf
            simp only [Bool.and_eq_true] at h1
            have h2 : wfPairs ((k, v) :: ps) = (wfV v && wfPairs ps) := rfl
            rw [h2] at h1
            simp only [Bool.and_eq_true] at h1
            exact ⟨h1.1, h1.2.1, h1.2.2⟩
          have hnb : 1 + needV v + needP ps ≤ f := by
            have h1 : needV (.obj ((k, v) :: ps)) = 1 + (1 + needV v + needP ps) := rfl
            rw [h1] at hneed
            omega
          obtain ⟨p2, hloop⟩ := ihR k v ps [] ind (lvl + 1) (nlInd ind lvl) rest
            (p + 1 + (nlInd ind (lvl + 1)).length) hwv.2.1 hwv.2.2
            (by simpa using hwv.1) hnb (nlInd_ws _ _)
          refine ⟨p2, ?_⟩
          simp only [encodeStr, List.cons_append] at hloop
          simp only [printVal, encodeStr, List.cons_append, List.append_assoc, parseValue,
            reduceIte]
          simp only [skipWs_ws_append (nlInd ind (lvl + 1)) _ (p + 1) (nlInd_ws _ _),
            skipWs_not_ws '"' _ _ (by decide)]
          rw [if_neg (by decide : ¬ ('"' : Char) = '\x7d')]
          simpa [List.append_assoc] using hloop
    · -- parseArrLoop on printed items
      intro x xs acc ind lvl wsc rest p hwx hwxs hnb hwsc
      have hrest2 : restOk (printListRest ind lvl xs ++ (wsc ++ ']' :: rest)) :=
        restOk_listRest ind lvl xs wsc rest hwsc
      obtain ⟨p1, hpx⟩ := ihP x ind lvl (printListRest ind lvl xs ++ (wsc ++ ']' :: rest)) p
        hwx (by omega) hrest2
      cases xs with
      | nil =>
        refine ⟨p1 + wsc.length + 1, ?_⟩
        simp only [printListRest, List.nil_append] at hpx ⊢
        simp only [parseArrLoop, hpx]
        simp only [skipWs_ws_append wsc _ p1 hwsc, skipWs_not_ws ']' _ _ (by decide)]
        simp
      | cons y ys =>
        have hwy : wfV y = true ∧ wfList ys = true := by
          simpa [wfList, Bool.and_eq_true] using hwxs
        have hnb2 : 1 + needV y + needL ys ≤ f := by
          simp only [needL] at hnb
          omega
        obtain ⟨c, cs, hpr, hcws, hcrb, hcbb⟩ := printVal_head ind lvl y
        obtain ⟨p2, hloop⟩ := ihQ y ys (acc ++ [x]) ind lvl wsc rest
          (p1 + 1 + (nlInd ind lvl).length) hwy.1 hwy.2 hnb2 hwsc
        refine ⟨p2, ?_⟩
        rw [hpr] at hloop
        simp only [List.cons_append] at hloop
        simp only [parseArrLoop, hpx]
        simp only [printListRest, List.cons_append, List.append_assoc]
        simp only [skipWs_not_ws ',' _ _ (by decide)]
        simp only [reduceIte, if_true, if_false]
        rw [hpr]
        simp only [List.cons_append,
          skipWs_ws_append (nlInd ind lvl) _ (p1 + 1) (nlInd_ws _ _),
          skipWs_not_ws c _ _ hcws]
        simpa [List.append_assoc] using hloop
    · -- parseObjLoop on printed items
      intro k v ps acc ind lvl wsc rest p hwv hwps hnd hnb hwsc
      have hrest4 : restOk (printPairsRest ind lvl ps ++ (wsc ++ '\x7d' :: rest)) :=
        restOk_pairsRest ind lvl ps wsc rest hwsc
      obtain ⟨pk, hscan⟩ := scanString_rt k.data
        ((escapeList k.data ++ '"' :: (':' :: ' ' :: (printVal ind lvl v ++
          (printPairsRest ind lvl ps ++ (wsc ++ '\x7d' :: rest))))).length + 1)
        (by
          have h1 := escapeList_length_ge k.data
          rw [List.length_append, List.length_cons]
          omega)
        [] (':' :: ' ' :: (printVal ind lvl v ++
          (printPairsRest ind lvl ps ++ (wsc ++ '\x7d' :: rest)))) (p + 1) p
      obtain ⟨p5, hpv⟩ := ihP v ind lvl
        (printPairsRest ind lvl ps ++ (wsc ++ '\x7d' :: rest))
        (pk + 1 + 1) hwv (by omega) hrest4
      have hfresh := keysNodupB_append_notMem acc k v ps hnd
      cases ps with
      | nil =>
        refine ⟨p5 + wsc.length + 1, ?_⟩
        simp only [printPairsRest, List.nil_append] at hpv hscan ⊢
        simp only [encodeStr, List.cons_append, List.append_assoc, List.nil_append,
          parseObjLoop, reduceIte, hscan]
        simp only [skipWs_not_ws ':' _ _ (by decide)]
        simp only [reduceIte, if_true, if_false]
        rw [show (' ' :: (printVal ind lvl v ++ (wsc ++ '\x7d' :: rest))) =
          [' '] ++ (printVal ind lvl v ++ (wsc ++ '\x7d' :: rest)) from rfl]
        obtain ⟨c, cs, hpr, hcws, hcrb, hcbb⟩ := printVal_head ind lvl v
        rw [skipWs_ws_append [' '] _ (pk + 1) (by decide), hpr]
        simp only [List.cons_append, skipWs_not_ws c _ _ hcws, List.length_singleton]
        rw [← List.cons_append, ← hpr, hpv]
        simp only [stringMk_data]
        rw [dictInsert_fresh acc k v hfresh]
        simp only [skipWs_ws_append wsc _ p5 hwsc, skipWs_not_ws '\x7d' _ _ (by decide)]
        simp
      | cons q ps2 =>
        obtain ⟨k2, v2⟩ := q
        have hwv2 : wfV v2 = true ∧ wfPairs ps2 = true := by
          simpa [wfPairs, Bool.and_eq_true] using hwps
        have hnb2 : 1 + needV v2 + needP ps2 ≤ f := by
          simp only [needP] at hnb
          omega
        have hnd2 : keysNodupB ((acc ++ [(k, v)]) ++ (k2, v2) :: ps2) = true := by
          simpa [List.append_assoc] using hnd
        obtain ⟨p2, hloop⟩ := ihR k2 v2 ps2 (acc ++ [(k, v)]) ind lvl wsc rest
          (p5 + 1 + (nlInd ind lvl).length) hwv2.1 hwv2.2 hnd2 hnb2 hwsc
        refine ⟨p2, ?_⟩
        simp only [encodeStr, List.cons_append] at hloop
        simp only [encodeStr, List.cons_append, List.append_assoc, List.nil_append,
          parseObjLoop, reduceIte, hscan]
        simp only [skipWs_not_ws ':' _ _ (by decide)]
        simp only [reduceIte, if_true, if_false]
        rw [show (' ' :: (printVal ind lvl v ++ (printPairsRest ind lvl ((k2, v2) :: ps2) ++
          (wsc ++ '\x7d' :: rest)))) = [' '] ++ (printVal ind lvl v ++
          (printPairsRest ind lvl ((k2, v2) :: ps2) ++ (wsc ++ '\x7d' :: rest))) from rfl]
        obtain ⟨c, cs, hpr, hcws, hcrb, hcbb⟩ := printVal_head ind lvl v
        rw [skipWs_ws_append [' '] _ (pk + 1) (by decide), hpr]
        simp only [List.cons_append, skipWs_not_ws c _ _ hcws, List.length_singleton]
        rw [← List.cons_append, ← hpr, hpv]
        simp only [stringMk_data]
        rw [dictInsert_fresh acc k v hfresh]
        simp only [printPairsRest, List.cons_append, List.append_assoc]
        simp only [skipWs_not_ws ',' _ _ (by decide)]
        simp only [reduceIte, if_true, if_false]
        simp only [skipWs_ws_append (nlInd ind lvl) _ (p5 + 1) (nlInd_ws _ _)]
        simp only [encodeStr, List.cons_append, List.append_assoc]
        simp only [skipWs_not_ws '"' _ _ (by decide)]
        simpa [List.append_assoc] using hloop

mutual
theorem needV_le_len (ind lvl : Nat) (v : JValue) :
    needV v ≤ (printVal ind lvl v).length := by
  match v with
  | .null => simp [needV, printVal]
  | .bool true => simp [needV, printVal]
  | .bool false => simp [needV, printVal]
  | .int n =>
    simp only [needV, printVal, intRepr]
    split
    · simp
    · obtain ⟨c, cs, hrep, _, _⟩ :=
        natReprAux_head (n.toNat + 1) n.toNat (by omega)
      simp [natRepr, hrep]
  | .str s => simp [needV, printVal, encodeStr]
  | .arr [] => simp [needV, needL, printVal]
  | .arr (x :: xs) =>
    have h1 := needV_le_len ind (lvl + 1) x
    have h2 := needL_le_len ind (lvl + 1) xs
    simp only [needV, needL, printVal, List.length_cons, List.length_append, nlInd]
    omega
  | .obj [] => simp [needV, needP, printVal]
  | .obj ((k, v) :: ps) =>
    have h1 := needV_le_len ind (lvl + 1) v
    have h2 := needP_le_len ind (lvl + 1) ps
    simp only [needV, needP, printVal, List.length_cons, List.length_append, nlInd]
    omega
termination_by structural v
theorem needL_le_len (ind lvl : Nat) (l : List JValue) :
    needL l ≤ (printListRest ind lvl l).length := by
  match l with
  | [] => simp [needL, printListRest]
  | y :: ys =>
    have h1 := needV_le_len ind lvl y
    have h2 := needL_le_len ind lvl ys
    simp only [needL, printListRest, List.length_cons, List.length_append, nlInd]
    omega
termination_by structural l
theorem needP_le_len (ind lvl : Nat) (l : List (String × JValue)) :
    needP l ≤ (printPairsRest ind lvl l).length := by
  match l with
  | [] => simp [needP, printPairsRest]
  | (k, v) :: qs =>
    have h1 := needV_le_len ind lvl v
    have h2 := needP_le_len ind lvl qs
    simp only [needP, printPairsRest, List.length_cons, List.length_append, nlInd]
    omega
termination_by structural l
end

theorem wfList_iff (l : List JValue) : wfList l = true ↔ ∀ x ∈ l, wfV x = true := by
  induction l with
  | nil => simp [wfList]
  | cons x xs ih =>
    simp only [wfList, Bool.and_eq_true, ih, List.mem_cons]
    constructor
    · rintro ⟨h1, h2⟩ y (rfl | hy)
      · exact h1
      · exact h2 y hy
    · intro h
      exact ⟨h x (Or.inl rfl), fun y hy => h y (Or.inr hy)⟩

theorem wfPairs_iff (l : List (String × JValue)) :
    wfPairs l = true ↔ ∀ q ∈ l, wfV q.2 = true := by
  induction l with
  | nil => simp [wfPairs]
  | cons q qs ih =>
    obtain ⟨k, v⟩ := q
    simp only [wfPairs, Bool.and_eq_true, ih, List.mem_cons]
    constructor
    · rintro ⟨h1, h2⟩ y (rfl | hy)
      · exact h1
      · exact h2 y hy
    · intro h
      exact ⟨h (k, v) (Or.inl rfl), fun y hy => h y (Or.inr hy)⟩

theorem keysNodupB_iff (l : List (String × JValue)) :
    keysNodupB l = true ↔ (l.map Prod.fst).Nodup := by
  induction l with
  | nil => simp [keysNodupB]
  | cons q qs ih =>
    obtain ⟨k, v⟩ := q
    simp only [keysNodupB, Bool.and_eq_true, Bool.not_eq_true', ih, List.map_cons,
      List.nodup_cons, List.any_eq_false, List.mem_map]
    constructor
    · rintro ⟨h1, h2⟩
      refine ⟨?_, h2⟩
      rintro ⟨q, hq, rfl⟩
      have := h1 q hq
      simp at this
    · rintro ⟨h1, h2⟩
      refine ⟨?_, h2⟩
      intro q hq
      intro e
      rw [beq_iff_eq] at e
      exact h1 ⟨q, hq, e⟩

theorem wfList_append (a b : List JValue) :
    wfList (a ++ b) = true ↔ wfList a = true ∧ wfList b = true := by
  simp only [wfList_iff, List.mem_append]
  constructor
  · intro h
    exact ⟨fun x hx => h x (Or.inl hx), fun x hx => h x (Or.inr hx)⟩
  · rintro ⟨h1, h2⟩ x (hx | hx)
    · exact h1 x hx
    · exact h2 x hx

theorem dictInsert_keysNodupB (ps : List (String × JValue)) (k : String) (v : JValue)
    (h : keysNodupB ps = true) : keysNodupB (dictInsert ps k v) = true := by
  rw [keysNodupB_iff] at h ⊢
  simp only [dictInsert]
  split
  · have hmap : (ps.map (fun q => if q.1 == k then (k, v) else q)).map Prod.fst =
        ps.map Prod.fst := by
      rw [List.map_map]
      apply List.map_congr_left
      intro q _
      by_cases hq : q.1 == k
      · simp only [Function.comp_apply, hq, if_true]
        simp only [beq_iff_eq] at hq
        exact hq.symm
      · simp only [beq_iff_eq] at hq
        simp [Function.comp_apply, hq]
    rw [hmap]
    exact h
  · rename_i hany
    rw [Bool.not_eq_true, List.any_eq_false] at hany
    simp only [List.map_append, List.map_cons, List.map_nil]
    rw [List.nodup_append]
    refine ⟨h, List.nodup_singleton k, ?_⟩
    intro x hx
    simp only [List.mem_singleton]
    intro e
    subst e
    obtain ⟨q, hq, hqk⟩ := List.mem_map.mp hx
    have := hany q hq
    simp [hqk] at this

theorem dictInsert_wfPairs (ps : List (String × JValue)) (k : String) (v : JValue)
    (hps : wfPairs ps = true) (hv : wfV v = true) :
    wfPairs (dictInsert ps k v) = true := by
  rw [wfPairs_iff] at hps ⊢
  simp only [dictInsert]
  split
  · intro q hq
    obtain ⟨q0, hq0, rfl⟩ := List.mem_map.mp hq
    by_cases hqk : q0.1 == k
    · simpa [hqk] using hv
    · simpa [hqk] using hps q0 hq0
  · intro q hq
    rcases List.mem_append.mp hq with hq | hq
    · exact hps q hq
    · simp only [List.mem_singleton] at hq
      subst hq
      exact hv

theorem wfV_arr (l : List JValue) : wfV (.arr l) = wfList l := by simp [wfV]

theorem wfV_obj (l : List (String × JValue)) :
    wfV (.obj l) = (keysNodupB l && wfPairs l) := by simp [wfV]

theorem wfList_singleton (v : JValue) : wfList [v] = wfV v := by simp [wfList]


/-- Every value the parser returns is well-formed: the only objects it builds
come from `dictInsert`, which never duplicates a key. -/
theorem parse_wf (fuel : Nat) :
    (∀ cs p v r p2, parseValue fuel cs p = .ok (v, r, p2) → wfV v = true)
    ∧ (∀ acc cs p v r p2, wfList acc = true →
        parseArrLoop fuel acc cs p = .ok (v, r, p2) → wfV v = true)
    ∧ (∀ acc cs p v r p2, keysNodupB acc = true → wfPairs acc = true →
        parseObjLoop fuel acc cs p = .ok (v, r, p2) → wfV v = true) := by
  induction fuel with
  | zero =>
    refine ⟨?_, ?_, ?_⟩
    · intro cs p v r p2 h
      simp [parseValue] at h
    · intro acc cs p v r p2 _ h
      simp [parseArrLoop] at h
    · intro acc cs p v r p2 _ _ h
      simp [parseObjLoop] at h
  | succ f ih =>
    obtain ⟨ihP, ihQ, ihR⟩ := ih
    refine ⟨?_, ?_, ?_⟩
    · intro cs p v r p2 h
      cases cs with
      | nil => simp [parseValue] at h
      | cons c cs1 =>
        simp only [parseValue] at h
        by_cases h1 : c = '"'
        · rw [if_pos h1] at h
          split at h
          · cases h
          · cases h; rfl
        · rw [if_neg h1] at h
          by_cases h2 : c = '{'
          · rw [if_pos h2] at h
            split at h
            · split at h
              · cases h; rfl
              · exact ihR [] _ _ v _ _ rfl rfl h
            · exact ihR [] _ _ v _ _ rfl rfl h
          · rw [if_neg h2] at h
            by_cases h3 : c = '['
            · rw [if_pos h3] at h
              split at h
              · split at h
                · cases h; rfl
                · exact ihQ [] _ _ v _ _ rfl h
              · exact ihQ [] _ _ v _ _ rfl h
            · rw [if_neg h3] at h
              by_cases h4 : c = 'n'
              · rw [if_pos h4] at h
                split at h
                · cases h; rfl
                · cases h
              · rw [if_neg h4] at h
                by_cases h5 : c = 't'
                · rw [if_pos h5] at h
                  split at h
                  · cases h; rfl
                  · cases h
                · rw [if_neg h5] at h
                  by_cases h6 : c = 'f'
                  · rw [if_pos h6] at h
                    split at h
                    · cases h; rfl
                    · cases h
                  · rw [if_neg h6] at h
                    by_cases h7 : c = '0'
                    · rw [if_pos h7] at h
                      cases h; rfl
                    · rw [if_neg h7] at h
                      by_cases h8 : isDigitC c = true
                      · rw [if_pos h8] at h
                        cases h; rfl
                      · rw [if_neg h8] at h
                        by_cases h9 : c = '-'
                        · rw [if_pos h9] at h
                          split at h
                          · split at h
                            · cases h; rfl
                            · split at h
                              · cases h; rfl
                              · cases h
                          · cases h
                        · rw [if_neg h9] at h
                          cases h
    · intro acc cs p v r p2 hacc h
      simp only [parseArrLoop] at h
      split at h
      · cases h
      · rename_i v1 cs1 p1 hpv
        have hv1 : wfV v1 = true := ihP _ _ _ _ _ hpv
        split at h
        · split at h
          · cases h
            rw [wfV_arr]
            rw [wfList_append]
            exact ⟨hacc, by rw [wfList_singleton]; exact hv1⟩
          · split at h
            · refine ihQ (acc ++ [v1]) _ _ v _ _ ?_ h
              rw [wfList_append]
              exact ⟨hacc, by rw [wfList_singleton]; exact hv1⟩
            · cases h
        · cases h
    · intro acc cs p v r p2 hnd hwp h
      cases cs with
      | nil => simp [parseObjLoop] at h
      | cons c0 cs1 =>
        simp only [parseObjLoop] at h
        by_cases h1 : c0 = '"'
        · rw [if_pos h1] at h
          split at h
          · cases h
          · rename_i k cs2 pk hscan
            split at h
            · rename_i c3 r3 hr3
              by_cases h2 : c3 = ':'
              · rw [if_pos h2] at h
                split at h
                · cases h
                · rename_i v1 cs5 p5 hpv
                  have hv1 : wfV v1 = true := ihP _ _ _ _ _ hpv
                  split at h
                  · rename_i c6 r7 hr6
                    by_cases h3 : c6 = '}'
                    · rw [if_pos h3] at h
                      cases h
                      rw [wfV_obj, Bool.and_eq_true]
                      exact ⟨dictInsert_keysNodupB acc k v1 hnd,
                        dictInsert_wfPairs acc k v1 hwp hv1⟩
                    · rw [if_neg h3] at h
                      split at h
                      · exact ihR (dictInsert acc k v1) _ _ v _ _
                          (dictInsert_keysNodupB acc k v1 hnd)
                          (dictInsert_wfPairs acc k v1 hwp hv1) h
                      · cases h
                  · cases h
              · rw [if_neg h2] at h
                cases h
            · cases h
        · rw [if_neg h1] at h
          cases h

/-- The value `json.loads` hands to the plugin is always well-formed. -/
theorem pyJsonLoads_wf (s : String) (v : JValue) (h : pyJsonLoads s = .ok v) :
    wfV v = true := by
  simp only [pyJsonLoads] at h
  split at h
  · cases h
  · rename_i v1 cs2 p2 hpv
    split at h
    · cases h
      exact (parse_wf _).1 _ _ _ _ _ hpv
    · cases h

theorem data_mk (l : List Char) : (String.mk l).data = l := rfl

/-! ## The canonical form is a fixed point of canonicalization -/

theorem deepSortPairs_keys (l : List (String × JValue)) :
    (deepSortPairs l).map Prod.fst = l.map Prod.fst := by
  induction l with
  | nil => simp [deepSortPairs]
  | cons q r ih =>
    obtain ⟨k, v⟩ := q
    simp [deepSortPairs, ih]

theorem sortPairs_perm (l : List (String × JValue)) : (sortPairs l).Perm l :=
  List.perm_insertionSort keyLE l

theorem keysNodupB_perm (l1 l2 : List (String × JValue)) (hp : l1.Perm l2)
    (h : keysNodupB l1 = true) : keysNodupB l2 = true := by
  rw [keysNodupB_iff] at h ⊢
  exact h.perm (hp.map Prod.fst)

theorem wfPairs_perm (l1 l2 : List (String × JValue)) (hp : l1.Perm l2)
    (h : wfPairs l1 = true) : wfPairs l2 = true := by
  rw [wfPairs_iff] at h ⊢
  intro q hq
  exact h q (hp.mem_iff.mpr hq)

theorem deepSortPairs_keysNodupB (l : List (String × JValue))
    (h : keysNodupB l = true) : keysNodupB (deepSortPairs l) = true := by
  rw [keysNodupB_iff] at h ⊢
  rw [deepSortPairs_keys]
  exact h

mutual
theorem deepSort_wf (v : JValue) (h : wfV v = true) : wfV (deepSort v) = true := by
  match v with
  | .null => exact h
  | .bool b => exact h
  | .int n => exact h
  | .str s => exact h
  | .arr xs =>
    rw [wfV_arr] at h
    simp only [deepSort]
    rw [wfV_arr]
    exact deepSortList_wf xs h
  | .obj kvs =>
    rw [wfV_obj, Bool.and_eq_true] at h
    simp only [deepSort]
    rw [wfV_obj, Bool.and_eq_true]
    have hnd := deepSortPairs_keysNodupB kvs h.1
    have hwp := deepSortPairs_wf kvs h.2
    exact ⟨keysNodupB_perm _ _ (sortPairs_perm _).symm hnd,
      wfPairs_perm _ _ (sortPairs_perm _).symm hwp⟩
termination_by structural v
theorem deepSortList_wf (l : List JValue) (h : wfList l = true) :
    wfList (deepSortList l) = true := by
  match l with
  | [] => exact h
  | x :: xs =>
    simp only [wfList, Bool.and_eq_true] at h
    simp only [deepSortList, wfList, Bool.and_eq_true]
    exact ⟨deepSort_wf x h.1, deepSortList_wf xs h.2⟩
termination_by structural l
theorem deepSortPairs_wf (l : List (String × JValue)) (h : wfPairs l = true) :
    wfPairs (deepSortPairs l) = true := by
  match l with
  | [] => exact h
  | (k, v) :: r =>
    simp only [wfPairs, Bool.and_eq_true] at h
    simp only [deepSortPairs, wfPairs, Bool.and_eq_true]
    exact ⟨deepSort_wf v h.1, deepSortPairs_wf r h.2⟩
termination_by structural l
end

theorem sortPairs_sorted (l : List (String × JValue)) :
    (sortPairs l).Sorted keyLE :=
  List.sorted_insertionSort keyLE l

theorem sortPairs_of_sorted (l : List (String × JValue)) (h : l.Sorted keyLE) :
    sortPairs l = l :=
  List.Sorted.insertionSort_eq h

theorem deepSortPairs_of_fixed (l : List (String × JValue))
    (h : ∀ q ∈ l, deepSort q.2 = q.2) : deepSortPairs l = l := by
  induction l with
  | nil => rfl
  | cons q r ih =>
    obtain ⟨k, v⟩ := q
    simp only [deepSortPairs]
    rw [h (k, v) (List.mem_cons_self _ _), ih (fun q hq => h q (List.mem_cons_of_mem _ hq))]

mutual
theorem deepSort_idem (v : JValue) : deepSort (deepSort v) = deepSort v := by
  match v with
  | .null => rfl
  | .bool b => rfl
  | .int n => rfl
  | .str s => rfl
  | .arr xs =>
    simp only [deepSort]
    rw [deepSortList_idem xs]
  | .obj kvs =>
    simp only [deepSort]
    have hfix : deepSortPairs (sortPairs (deepSortPairs kvs)) = sortPairs (deepSortPairs kvs) := by
      apply deepSortPairs_of_fixed
      intro q hq
      exact deepSortPairs_idemElem kvs q ((sortPairs_perm _).mem_iff.mp hq)
    rw [hfix, sortPairs_of_sorted _ (sortPairs_sorted _)]
termination_by structural v
theorem deepSortList_idem (l : List JValue) :
    deepSortList (deepSortList l) = deepSortList l := by
  match l with
  | [] => rfl
  | x :: xs =>
    simp only [deepSortList]
    rw [deepSort_idem x, deepSortList_idem xs]
termination_by structural l
theorem deepSortPairs_idemElem (l : List (String × JValue)) :
    ∀ q ∈ deepSortPairs l, deepSort q.2 = q.2 := by
  match l with
  | [] => intro q hq; cases hq
  | (k, v) :: r =>
    intro q hq
    simp only [deepSortPairs, List.mem_cons] at hq
    rcases hq with rfl | hq
    · exact deepSort_idem v
    · exact deepSortPairs_idemElem r q hq
termination_by structural l
end

/-! ## The printed text has no trailing whitespace -/

theorem natReprAux_last (fuel : Nat) :
    ∀ n, n < fuel → ∃ l d, d < 10 ∧ natReprAux fuel n = l ++ [digitChar d] := by
  induction fuel with
  | zero => intro n h; omega
  | succ f ih =>
    intro n h
    by_cases h10 : n < 10
    · exact ⟨[], n, h10, by simp [natReprAux, h10]⟩
    · exact ⟨natReprAux f (n / 10), n % 10, by omega, by simp [natReprAux, h10]⟩

theorem intRepr_last (n : Int) : ∃ l d, d < 10 ∧ intRepr n = l ++ [digitChar d] := by
  simp only [intRepr]
  split
  · obtain ⟨l, d, hd, hrep⟩ := natReprAux_last (n.natAbs + 1) n.natAbs (by omega)
    exact ⟨'-' :: l, d, hd, by simp [natRepr, hrep]⟩
  · obtain ⟨l, d, hd, hrep⟩ := natReprAux_last (n.toNat + 1) n.toNat (by omega)
    exact ⟨l, d, hd, by simp [natRepr, hrep]⟩

theorem printVal_last (ind lvl : Nat) (v : JValue) :
    ∃ l c, printVal ind lvl v = l ++ [c] ∧ isPyWsChar c = false := by
  cases v with
  | null => exact ⟨['n', 'u', 'l'], 'l', by simp [printVal], by decide⟩
  | bool b =>
    cases b with
    | true => exact ⟨['t', 'r', 'u'], 'e', by simp [printVal], by decide⟩
    | false => exact ⟨['f', 'a', 'l', 's'], 'e', by simp [printVal], by decide⟩
  | int n =>
    obtain ⟨l, d, hd, hrep⟩ := intRepr_last n
    exact ⟨l, digitChar d, by simp [printVal, hrep], (digitChar_facts d hd).2.2.2.1⟩
  | str s =>
    exact ⟨'"' :: escapeList s.data, '"', by simp [printVal, encodeStr], by decide⟩
  | arr xs =>
    cases xs with
    | nil => exact ⟨['['], ']', by simp [printVal], by decide⟩
    | cons x xs =>
      refine ⟨'[' :: (nlInd ind (lvl + 1) ++ printVal ind (lvl + 1) x ++
        printListRest ind (lvl + 1) xs ++ nlInd ind lvl), ']', ?_, by decide⟩
      simp [printVal, List.append_assoc]
  | obj ps =>
    cases ps with
    | nil => exact ⟨['\x7b'], '\x7d', by simp [printVal], by decide⟩
    | cons q ps =>
      obtain ⟨k, v⟩ := q
      refine ⟨'\x7b' :: (nlInd ind (lvl + 1) ++ encodeStr k ++ ':' :: ' ' ::
        printVal ind (lvl + 1) v ++ printPairsRest ind (lvl + 1) ps ++
        nlInd ind lvl), '\x7d', ?_, by decide⟩
      simp [printVal, List.append_assoc]

/-- The printed text is its own `rstrip()`. -/
theorem pyRstrip_printVal (ind lvl : Nat) (v : JValue) :
    pyRstrip ⟨printVal ind lvl v⟩ = ⟨printVal ind lvl v⟩ := by
  obtain ⟨l, c, hpr, hws⟩ := printVal_last ind lvl v
  simp only [pyRstrip, data_mk, hpr, List.reverse_append, List.reverse_cons, List.reverse_nil,
    List.nil_append, List.cons_append, List.dropWhile_cons, hws, Bool.false_eq_true, if_false,
    List.reverse_reverse]

/-- Parsing the canonical serialization of a well-formed value recovers the
value exactly. -/
theorem pyJsonLoads_print (ind : Nat) (w : JValue) (h : wfV w = true) :
    pyJsonLoads ⟨printVal ind 0 w⟩ = .ok w := by
  obtain ⟨c, cs, hpv, hcw, _, _⟩ := printVal_head ind 0 w
  obtain ⟨p2, hparse⟩ := (parse_print_rt ((printVal ind 0 w).length + 1)).1 w ind 0 [] 0 h
      (by have := needV_le_len ind 0 w; omega) trivial
  rw [List.append_nil] at hparse
  simp only [pyJsonLoads, data_mk]
  rw [hpv, skipWs_not_ws c cs 0 hcw, ← hpv, hparse]
  simp [skipWs]

